import Mathlib

/-!
Verification of the topic-hierarchy validation engine of pywis-topics
(src/pywis_topics/topics.py and src/pywis_topics/centre_id.py).

Strings are modelled as lists of characters (`Str`).  The Python string
operations used by the source (split with and without maxsplit, join,
replace, startswith, islower, isascii, find) are given executable
definitions below.  The regular expression built by
`_validate_esd_subtopic` out of an Earth-system-discipline subtopic is
modelled by the matcher `rmatch` over the three kinds of atoms the
textual construction can produce: literal characters, the alternation
group substituted for each single-level wildcard, and the dot-star
substituted for each multi-level wildcard.  This model is faithful to
Python re for strings over the character set that occurs in topics and
reference tables (ASCII letters, digits, hyphen, underscore, slash and
the two wildcard characters); theorems about the wildcard matcher carry
the corresponding character-set hypotheses.  File access (reference
tables, the TLD list) is modelled by an environment holding the tables
already loaded per location, since table loading is an excluded
collaborator.
-/

/-- Character lists standing for Python strings. -/
abbrev Str := List Char

deriving instance DecidableEq for Except

/-- Python exception outcomes of the modelled code paths.  The source
raises ValueError with distinct messages (empty topic, invalid topic,
no matching topics, bad centre-id) and can hit an IndexError; the
constructors record the raise site. -/
inductive PyErr where
  | emptyTopic
  | invalidTopic
  | noMatch
  | indexError
  | badCentreId
deriving DecidableEq, Repr

/-- Split off the part of `l` before the first occurrence of `sep`,
returning `none` when `sep` does not occur. -/
def breakAtSep (sep : Char) : Str → Option (Str × Str)
  | [] => none
  | c :: rest =>
    if c = sep then some ([], rest)
    else (breakAtSep sep rest).map (fun p => (c :: p.1, p.2))

/-- Python `s.split(sep, n)`: split on at most `n` separators, scanning
from the left; the final piece keeps any remaining separators. -/
def splitN (sep : Char) : Nat → Str → List Str
  | 0, l => [l]
  | n + 1, l =>
    match breakAtSep sep l with
    | none => [l]
    | some (a, b) => a :: splitN sep n b

/-- Python `s.split(sep)`: split on every separator.  `l.length`
separators always suffice. -/
def splitChar (sep : Char) (l : Str) : List Str :=
  splitN sep l.length l

/-- Python `sep.join(parts)`. -/
def joinChar (sep : Char) : List Str → Str
  | [] => []
  | [s] => s
  | s :: r :: rest => s ++ sep :: joinChar sep (r :: rest)

/-- Python `s.split(sep)[-1]`: the final piece of the split. -/
def lastTok (sep : Char) (l : Str) : Str :=
  (splitChar sep l).getLastD []

/-- Fuel-bounded worker for `removeAll`; every step consumes at least
one character, so fuel equal to the length suffices. -/
def removeAllN (pat : Str) : Nat → Str → Str
  | _, [] => []
  | 0, l => l
  | fuel + 1, c :: rest =>
    if pat ≠ [] ∧ pat.isPrefixOf (c :: rest) then
      removeAllN pat fuel ((c :: rest).drop pat.length)
    else
      c :: removeAllN pat fuel rest

/-- Python `s.replace(pat, '')`: delete the non-overlapping occurrences
of `pat`, scanning left to right.  With an empty pattern Python returns
the string unchanged when the replacement is empty. -/
def removeAll (pat : Str) (l : Str) : Str :=
  removeAllN pat l.length l

/-- Whether `pat` occurs as a contiguous run somewhere in `l`. -/
def occursIn (pat : Str) : Str → Bool
  | [] => pat.isPrefixOf []
  | c :: rest => pat.isPrefixOf (c :: rest) || occursIn pat rest

/-- ASCII cased characters, the fragment of Python str.islower casing
relevant to ASCII input.  For non-ASCII input the baseline validator
rejects via the isascii check regardless, so the composite
`validate_baseline` below is extensionally faithful. -/
def isCasedAscii (c : Char) : Bool := c.isUpper || c.isLower

/-- Python `s.islower()`: at least one cased character and no cased
character that is not lowercase (for ASCII: no uppercase letter). -/
def pyIslower (t : Str) : Bool :=
  t.any isCasedAscii && t.all (fun c => !c.isUpper)

/-- Python `s.isascii()`: every code point below 128. -/
def pyIsascii (t : Str) : Bool := t.all (fun c => c.toNat < 128)

/-- pywis_topics.topics.validate_baseline: reject a dot anywhere, a
string that is not Python-lowercase, a non-ASCII character, and a first
multi-level wildcard that is not the final character. -/
def validate_baseline (t : Str) : Bool :=
  if '.' ∈ t then false
  else if !pyIslower t then false
  else if !pyIsascii t then false
  else if '#' ∈ t then
    if t.findIdx (fun c => c = '#') ≠ t.length - 1 then false else true
  else true

/-- The loaded reference tables: one token list per hierarchy level,
seven levels when loaded from a complete bundle.  Level-6 tokens are
full slash-joined paths. -/
structure TopicHierarchy where
  topics : List (List Str)
deriving DecidableEq, Repr

/-- `self.topics[-1]`, the Earth-system-discipline path table. -/
def TopicHierarchy.lastLevel (th : TopicHierarchy) : List Str :=
  th.topics.getLastD []

/-- TopicHierarchy._validate_core, with the running enumerate index
threaded through: empty tokens are skipped, the centre-id position is
skipped in lenient mode, a bare wildcard token is rejected in strict
mode and skipped otherwise, and any other token must be a member of its
level's table. -/
def TopicHierarchy.validate_core (th : TopicHierarchy) (strict : Bool) :
    Nat → List Str → Bool
  | _, [] => true
  | i, v :: rest =>
    if v = [] then th.validate_core strict (i + 1) rest
    else if strict = false ∧ i = 3 then th.validate_core strict (i + 1) rest
    else if v = "+".data ∨ v = "#".data then
      if strict = false then th.validate_core strict (i + 1) rest else false
    else if v ∈ th.topics.getD i [] then th.validate_core strict (i + 1) rest
    else false

/-- Atoms of the regular expression `_validate_esd_subtopic` builds
textually: a literal character, the group substituted for a
single-level wildcard, and the dot-star substituted for a multi-level
wildcard. -/
inductive RAtom where
  | lit : Char → RAtom
  | plus : RAtom
  | hash : RAtom
deriving DecidableEq, Repr

/-- Python regex word characters, ASCII fragment. -/
def isWordChar (c : Char) : Bool := c.isAlpha || c.isDigit || c = '_'

/-- What the alternation group substituted for a single-level wildcard
matches: one or more word characters, or a lone literal plus sign. -/
def plusSeg (w : Str) : Bool :=
  decide (w = "+".data) || (!w.isEmpty && w.all isWordChar)

/-- Anchored regex matching over the atom list: `rmatch atoms e` holds
iff the whole of `e` is consumed.  This is re.search of the constructed
pattern (anchored by the leading caret and the trailing dollar the code
adds) for newline-free ASCII subject strings. -/
def rmatch : List RAtom → Str → Bool
  | [], e => decide (e = [])
  | RAtom.lit _ :: _, [] => false
  | RAtom.lit c :: as, d :: ds => decide (c = d) && rmatch as ds
  | RAtom.plus :: as, e =>
    (List.range e.length).any
      (fun n => plusSeg (e.take (n + 1)) && rmatch as (e.drop (n + 1)))
  | RAtom.hash :: as, e =>
    (List.range (e.length + 1)).any (fun n => rmatch as (e.drop n))

/-- The atoms of the pattern built from a candidate subtopic: each
wildcard character becomes its substituted atom, every other character
is matched literally. -/
def toAtoms (s : Str) : List RAtom :=
  s.map (fun c => if c = '+' then RAtom.plus
                  else if c = '#' then RAtom.hash
                  else RAtom.lit c)

/-- The textual substitution the source performs on one character when
building the regex string. -/
def expandChar (c : Char) : Str :=
  if c = '+' then "(\\w+|\\+)".data
  else if c = '#' then ".*".data
  else [c]

/-- The textual substitution over a whole string (Python str.replace
substitutions do not rescan replacement text, so they act
character-wise). -/
def expandStr : Str → Str
  | [] => []
  | c :: rest => expandChar c ++ expandStr rest

/-- The regex string the source builds: caret, substituted candidate,
dollar. -/
def buildRegex (esd : Str) : Str :=
  '^' :: expandStr esd ++ ['$']

/-- `regex.split('/')[-1].replace('$', '').replace('.*', '').replace('^', '')`,
the last-token string the source compares entry tails against. -/
def regexLastToken (esd : Str) : Str :=
  removeAll "^".data
    (removeAll ".*".data
      (removeAll "$".data (lastTok '/' (buildRegex esd))))

/-- TopicHierarchy._validate_esd_subtopic.  In strict mode the source
indexes `esd_subtopic.split('/')[1]` before returning, so a
single-piece subtopic raises IndexError; otherwise the result is table
membership or the experimental bypass.  In lenient mode the
experimental bypass is guarded by the piece count, and otherwise each
table entry is tested against the constructed pattern and, when the
entry does not end in the multi-level wildcard character, against the
last-token equality rule. -/
def TopicHierarchy.validate_esd_subtopic (th : TopicHierarchy) (esd : Str)
    (strict : Bool) : Except PyErr Bool :=
  if strict then
    match (splitChar '/' esd)[1]? with
    | none => .error .indexError
    | some seg =>
      .ok (decide (esd ∈ th.lastLevel) || decide (seg = "experimental".data))
  else
    let tokens := splitChar '/' esd
    if tokens.length > 1 ∧ tokens[1]? = some "experimental".data then .ok true
    else
      .ok (th.lastLevel.any (fun e =>
        rmatch (toAtoms esd) e &&
        !(decide (e.getLast? = some '#')) &&
        (decide (regexLastToken esd = []) ||
         decide (lastTok '/' e = regexLastToken esd))))

/-- `topic_hierarchy.split('/')[:6]`, the core tokens. -/
def coreOf (t : Str) : List Str := (splitChar '/' t).take 6

/-- `'/'.join(topic_hierarchy.split('/')[6:])`, the Earth-system-
discipline subtopic. -/
def esdOf (t : Str) : Str := joinChar '/' ((splitChar '/' t).drop 6)

/-- TopicHierarchy.validate.  A missing topic or the bare separator
raises; `validate_baseline` is called on line 146 of the source but its
result is discarded, so it does not influence the verdict; the core
tokens are checked first and then, when non-empty, the
Earth-system-discipline subtopic. -/
def TopicHierarchy.validate (th : TopicHierarchy) (t? : Option Str)
    (strict : Bool) : Except PyErr Bool :=
  match t? with
  | none => .error .emptyTopic
  | some t =>
    if t = "/".data then .error .emptyTopic
    else if th.validate_core strict 0 (coreOf t) then
      if esdOf t ≠ [] then th.validate_esd_subtopic (esdOf t) strict
      else .ok true
    else .ok false

/-- The child set TopicHierarchy.list_children computes for a valid
topic, returned through Python set semantics (here: order-preserving
deduplication; claims about the result are stated via membership). -/
def TopicHierarchy.childSet (th : TopicHierarchy) (t : Str) : List Str :=
  let thTokens := splitN '/' 6 t
  let n := thTokens.length
  if n < 6 then (th.topics.getD n []).dedup
  else if n = 6 then
    (th.lastLevel.map (fun e => (splitChar '/' e).headD [])).dedup
  else
    let domain := thTokens.getLastD []
    (th.lastLevel.filterMap (fun e =>
      if domain.isPrefixOf e ∧ e ≠ domain then
        let mask := removeAll (domain ++ ['/']) e
        if mask ≠ [] then some ((splitChar '/' mask).headD []) else none
      else none)).dedup

/-- TopicHierarchy.list_children: the bare separator dumps the level-0
table, a missing topic raises through validate, an invalid topic
raises, an empty child set raises, and otherwise the deduplicated child
set is returned. -/
def TopicHierarchy.list_children (th : TopicHierarchy) (t? : Option Str) :
    Except PyErr (List Str) :=
  match t? with
  | none => .error .emptyTopic
  | some t =>
    if t = "/".data then .ok (th.topics.getD 0 [])
    else
      match th.validate (some t) true with
      | .error e => .error e
      | .ok false => .error .invalidTopic
      | .ok true =>
        if th.childSet t = [] then .error .noMatch
        else .ok (th.childSet t)

/-- Follows the spec words for listing children below level 6 (C8): for
every level-6 entry of which the given subtopic is a proper prefix, the
first segment immediately following that prefix; entries equal to the
subtopic contribute nothing. -/
def specNextSegs (entries : List Str) (domain : Str) : List Str :=
  entries.filterMap (fun e =>
    if domain.isPrefixOf e ∧ e ≠ domain then
      let rem := e.drop domain.length
      let rem2 := if rem.head? = some '/' then rem.tail else rem
      if rem2 = [] then none else some ((splitChar '/' rem2).headD [])
    else none)

/-- Follows the spec words for the baseline reject conditions (C7): a
dot, an uppercase character, a character outside the printable ASCII
range, or a multi-level wildcard character that is not final. -/
def baselineSpecFalse (t : Str) : Bool :=
  decide ('.' ∈ t) || t.any (fun c => c.isUpper) ||
  t.any (fun c => !(decide (32 ≤ c.toNat) && decide (c.toNat ≤ 126))) ||
  (decide ('#' ∈ t) && decide (t.findIdx (fun c => c = '#') ≠ t.length - 1))

/-- Characters over which the regex model is faithful to Python re:
ASCII letters and digits, hyphen, underscore, the path separator and
the two wildcard characters.  None of them is a regex metacharacter. -/
def safeChar (c : Char) : Bool :=
  c.isLower || c.isUpper || c.isDigit || c = '-' || c = '_' || c = '/' ||
  c = '+' || c = '#'

/-- Characters occurring in reference-table entries: lowercase ASCII
letters, digits, hyphen, underscore and the path separator. -/
def entryChar (c : Char) : Bool :=
  c.isLower || c.isDigit || c = '-' || c = '_' || c = '/'

/-- The filesystem contents the centre-id validator reads, already
loaded: the topic-hierarchy bundle and the TLD list found at a given
tables location (`none` is the default user-directory location). -/
structure Env where
  hierarchyAt : Option Str → TopicHierarchy
  tldsAt : Option Str → List Str

/-- The state CentreId.__init__ builds: the full centre-id, the TLD and
centre parts split on the first hyphen, and the tables location. -/
structure CentreId where
  centre_id : Str
  tld : Str
  centre : Str
  tables : Option Str
deriving DecidableEq, Repr

/-- CentreId.__init__: `centre_id.split('-', 1)` must yield two parts,
otherwise ValueError. -/
def CentreId.init (cid : Str) (tables : Option Str) : Except PyErr CentreId :=
  match breakAtSep '-' cid with
  | none => .error .badCentreId
  | some (a, b) => .ok ⟨cid, a, b, tables⟩

/-- Python `s.upper()` on ASCII input. -/
def upperStr (s : Str) : Str := s.map Char.toUpper

/-- CentreId.validate: baseline conventions on the full centre-id, the
upper-cased TLD against the TLD list read from the configured tables
location, and the allocation-uniqueness check against the level-3 table
of `TopicHierarchy()` — which the source constructs WITHOUT the tables
argument (line 89), hence against the default location. -/
def CentreId.validate (env : Env) (c : CentreId) : Bool :=
  validate_baseline c.centre_id &&
  decide (upperStr c.tld ∈ env.tldsAt c.tables) &&
  !(decide (c.centre_id ∈ (env.hierarchyAt none).topics.getD 3 []))

/-! Concrete fixture tables, mirroring a small fragment of the WIS2
bundle the test suite exercises. -/

/-- A small standard table bundle. -/
def thStd : TopicHierarchy :=
  ⟨[["cache".data, "origin".data],
    ["a".data],
    ["wis2".data],
    ["ca-eccc-msc".data],
    ["data".data],
    ["core".data],
    ["weather/surface-based-observations/synop".data]]⟩

/-- Tables whose level-6 entry has a mid-segment containing hyphens. -/
def thC6 : TopicHierarchy :=
  ⟨[[], [], [], [], [], [], ["a/b-c/d".data]]⟩

/-- Tables whose level-6 entry is a two-segment path. -/
def thC5 : TopicHierarchy :=
  ⟨[[], [], [], [], [], [], ["weather/ab".data]]⟩

/-- Tables with one level-6 entry a string extension (not a
path extension) of another. -/
def thC8 : TopicHierarchy :=
  ⟨[["cache".data],
    ["a".data],
    ["wis2".data],
    ["ca-eccc-msc".data],
    ["data".data],
    ["core".data],
    ["weather/observations".data, "weather/observations1".data]]⟩

/-- Tables whose level-6 entries extend each other segment-aligned. -/
def thC8w : TopicHierarchy :=
  ⟨[["cache".data],
    ["a".data],
    ["wis2".data],
    ["ca-eccc-msc".data],
    ["data".data],
    ["core".data],
    ["weather/obs".data, "weather/obs/x".data]]⟩

/-- Custom-location tables for the centre-id claim: the centre-id
xx-test is allocated at the custom location only. -/
def thC10custom : TopicHierarchy :=
  ⟨[[], [], [], ["xx-test".data], [], [], []]⟩

/-- Default-location tables for the centre-id claim: no allocation. -/
def thC10default : TopicHierarchy :=
  ⟨[[], [], [], [], [], [], []]⟩

/-- Environment for the centre-id claim: the custom location holds the
allocation table containing xx-test, the default location does not;
every location lists the TLD XX. -/
def envC10 : Env :=
  ⟨fun loc => if loc = some "custom".data then thC10custom else thC10default,
   fun _ => ["XX".data]⟩

/-! ### Lemmas about the string primitives -/

theorem breakAtSep_some_length {sep : Char} :
    ∀ {l a b : Str}, breakAtSep sep l = some (a, b) → b.length < l.length := by
  intro l
  induction l with
  | nil => intro a b h; simp [breakAtSep] at h
  | cons c rest ih =>
    intro a b h
    by_cases hc : c = sep
    · simp only [breakAtSep, if_pos hc, Option.some.injEq, Prod.mk.injEq] at h
      simp [← h.2]
    · simp only [breakAtSep, if_neg hc, Option.map_eq_some'] at h
      obtain ⟨⟨a', b'⟩, h1, h2⟩ := h
      have := ih h1
      cases h2
      simp
      omega

theorem breakAtSep_eq_none {sep : Char} :
    ∀ {l : Str}, breakAtSep sep l = none ↔ sep ∉ l := by
  intro l
  induction l with
  | nil => simp [breakAtSep]
  | cons c rest ih =>
    by_cases hc : c = sep
    · subst hc; simp [breakAtSep]
    · simp only [breakAtSep, if_neg hc, Option.map_eq_none', ih, List.mem_cons]
      constructor
      · intro h hmem
        rcases hmem with h1 | h2
        · exact hc h1.symm
        · exact h h2
      · intro h hmem
        exact h (Or.inr hmem)

theorem breakAtSep_eq_some {sep : Char} :
    ∀ {l a b : Str}, breakAtSep sep l = some (a, b) →
      l = a ++ sep :: b ∧ sep ∉ a := by
  intro l
  induction l with
  | nil => intro a b h; simp [breakAtSep] at h
  | cons c rest ih =>
    intro a b h
    by_cases hc : c = sep
    · simp only [breakAtSep, if_pos hc, Option.some.injEq, Prod.mk.injEq] at h
      subst hc
      simp [← h.1, ← h.2]
    · simp only [breakAtSep, if_neg hc, Option.map_eq_some'] at h
      obtain ⟨⟨a', b'⟩, h1, h2⟩ := h
      obtain ⟨hl, hna⟩ := ih h1
      cases h2
      constructor
      · simp [hl]
      · simp only [List.mem_cons, not_or]
        exact ⟨fun hcs => hc hcs.symm, hna⟩

theorem breakAtSep_append_not_mem {sep : Char} :
    ∀ {l1 : Str} (l2 : Str), sep ∉ l1 →
      breakAtSep sep (l1 ++ sep :: l2) = some (l1, l2) := by
  intro l1
  induction l1 with
  | nil => intro l2 _; simp [breakAtSep]
  | cons c rest ih =>
    intro l2 h
    simp only [List.mem_cons, not_or] at h
    have hc : ¬ c = sep := fun hcs => h.1 hcs.symm
    simp [breakAtSep, if_neg hc, ih l2 h.2]

theorem breakAtSep_append_some {sep : Char} :
    ∀ {l1 a b : Str} (l2 : Str), breakAtSep sep l1 = some (a, b) →
      breakAtSep sep (l1 ++ l2) = some (a, b ++ l2) := by
  intro l1 a b l2 h
  obtain ⟨hl, hna⟩ := breakAtSep_eq_some h
  subst hl
  rw [List.append_assoc, List.cons_append]
  exact breakAtSep_append_not_mem (b ++ l2) hna

theorem splitN_fuel {sep : Char} :
    ∀ (n m : Nat) (l : Str), l.length ≤ n → l.length ≤ m →
      splitN sep n l = splitN sep m l := by
  intro n
  induction n with
  | zero =>
    intro m l hn _
    have : l = [] := List.length_eq_zero.mp (Nat.le_zero.mp hn)
    subst this
    cases m with
    | zero => rfl
    | succ m =>
      have : breakAtSep sep ([] : Str) = none := by simp [breakAtSep]
      simp [splitN, this]
  | succ n ih =>
    intro m l hn hm
    cases m with
    | zero =>
      have : l = [] := List.length_eq_zero.mp (Nat.le_zero.mp hm)
      subst this
      have : breakAtSep sep ([] : Str) = none := by simp [breakAtSep]
      simp [splitN, this]
    | succ m =>
      cases hb : breakAtSep sep l with
      | none => simp [splitN, hb]
      | some p =>
        obtain ⟨a, b⟩ := p
        have hlen := breakAtSep_some_length hb
        simp only [splitN, hb]
        rw [ih m b (by omega) (by omega)]

theorem splitChar_unfold (sep : Char) (l : Str) :
    splitChar sep l =
      match breakAtSep sep l with
      | none => [l]
      | some (a, b) => a :: splitChar sep b := by
  cases hb : breakAtSep sep l with
  | none =>
    cases l with
    | nil => rfl
    | cons c rest => simp [splitChar, splitN, hb]
  | some p =>
    obtain ⟨a, b⟩ := p
    have hlen := breakAtSep_some_length hb
    cases l with
    | nil => simp [breakAtSep] at hb
    | cons c rest =>
      simp only [splitChar, List.length_cons, splitN, hb]
      rw [splitN_fuel rest.length b.length b (by simp at hlen; omega) (le_refl _)]

theorem splitChar_ne_nil (sep : Char) (l : Str) : splitChar sep l ≠ [] := by
  rw [splitChar_unfold]
  cases hb : breakAtSep sep l with
  | none => simp
  | some p => obtain ⟨a, b⟩ := p; simp

theorem splitChar_of_not_mem {sep : Char} {l : Str} (h : sep ∉ l) :
    splitChar sep l = [l] := by
  rw [splitChar_unfold, breakAtSep_eq_none.mpr h]

theorem splitN_ne_nil (sep : Char) : ∀ (n : Nat) (l : Str), splitN sep n l ≠ [] := by
  intro n l
  cases n with
  | zero => simp [splitN]
  | succ n =>
    cases hb : breakAtSep sep l with
    | none => simp [splitN, hb]
    | some p => obtain ⟨a, b⟩ := p; simp [splitN, hb]

theorem joinChar_cons_of_ne_nil {sep : Char} {s : Str} {rest : List Str}
    (h : rest ≠ []) : joinChar sep (s :: rest) = s ++ sep :: joinChar sep rest := by
  cases rest with
  | nil => exact absurd rfl h
  | cons r t => rfl

theorem joinChar_splitN {sep : Char} :
    ∀ (n : Nat) (l : Str), l.length ≤ n → joinChar sep (splitN sep n l) = l := by
  intro n
  induction n with
  | zero =>
    intro l hn
    have : l = [] := List.length_eq_zero.mp (Nat.le_zero.mp hn)
    subst this
    rfl
  | succ n ih =>
    intro l hn
    cases hb : breakAtSep sep l with
    | none => simp [splitN, hb, joinChar]
    | some p =>
      obtain ⟨a, b⟩ := p
      have hlen := breakAtSep_some_length hb
      obtain ⟨hl, -⟩ := breakAtSep_eq_some hb
      simp only [splitN, hb]
      rw [joinChar_cons_of_ne_nil (splitN_ne_nil sep n b), ih b (by omega)]
      exact hl.symm

theorem joinChar_splitChar (sep : Char) (l : Str) :
    joinChar sep (splitChar sep l) = l :=
  joinChar_splitN l.length l (le_refl _)

theorem mem_joinChar {sep : Char} {c : Char} :
    ∀ {ls : List Str} {s : Str}, s ∈ ls → c ∈ s → c ∈ joinChar sep ls := by
  intro ls
  induction ls with
  | nil => intro s h; simp at h
  | cons a rest ih =>
    intro s hs hc
    cases rest with
    | nil =>
      simp only [List.mem_singleton] at hs
      subst hs
      exact hc
    | cons r t =>
      rw [joinChar_cons_of_ne_nil (by simp)]
      rcases List.mem_cons.mp hs with h1 | h2
      · subst h1; exact List.mem_append_left _ hc
      · exact List.mem_append_right _ (List.mem_cons_of_mem _ (ih h2 hc))

theorem mem_joinChar_cases {sep : Char} {c : Char} :
    ∀ {ls : List Str}, c ∈ joinChar sep ls → c = sep ∨ ∃ s ∈ ls, c ∈ s := by
  intro ls
  induction ls with
  | nil => intro h; simp [joinChar] at h
  | cons a rest ih =>
    intro h
    cases rest with
    | nil => exact Or.inr ⟨a, by simp, h⟩
    | cons r t =>
      rw [joinChar_cons_of_ne_nil (by simp)] at h
      rcases List.mem_append.mp h with h1 | h2
      · exact Or.inr ⟨a, by simp, h1⟩
      · rcases List.mem_cons.mp h2 with h3 | h4
        · exact Or.inl h3
        · rcases ih h4 with h5 | ⟨s, hs, hcs⟩
          · exact Or.inl h5
          · exact Or.inr ⟨s, List.mem_cons_of_mem _ hs, hcs⟩

theorem exists_mem_splitChar {sep c : Char} {l : Str} (hc : c ∈ l)
    (hne : c ≠ sep) : ∃ s ∈ splitChar sep l, c ∈ s := by
  have h := hc
  rw [← joinChar_splitChar sep l] at h
  rcases mem_joinChar_cases h with h1 | h2
  · exact absurd h1 hne
  · exact h2

theorem mem_of_mem_splitChar {sep c : Char} {l s : Str}
    (hs : s ∈ splitChar sep l) (hc : c ∈ s) : c ∈ l := by
  rw [← joinChar_splitChar sep l]
  exact mem_joinChar hs hc

theorem not_sep_mem_splitN {sep : Char} :
    ∀ (n : Nat) {l s : Str}, l.length ≤ n → s ∈ splitN sep n l → sep ∉ s := by
  intro n
  induction n with
  | zero =>
    intro l s hn hs
    have : l = [] := List.length_eq_zero.mp (Nat.le_zero.mp hn)
    subst this
    simp only [splitN, List.mem_singleton] at hs
    subst hs
    simp
  | succ n ih =>
    intro l s hn hs
    cases hb : breakAtSep sep l with
    | none =>
      simp only [splitN, hb, List.mem_singleton] at hs
      subst hs
      exact breakAtSep_eq_none.mp hb
    | some p =>
      obtain ⟨a, b⟩ := p
      have hlen := breakAtSep_some_length hb
      obtain ⟨-, hna⟩ := breakAtSep_eq_some hb
      simp only [splitN, hb, List.mem_cons] at hs
      rcases hs with h1 | h2
      · subst h1; exact hna
      · exact ih (by omega) h2

theorem not_sep_mem_splitChar {sep : Char} {l s : Str}
    (hs : s ∈ splitChar sep l) : sep ∉ s :=
  not_sep_mem_splitN l.length (le_refl _) hs

theorem splitChar_joinChar {sep : Char} :
    ∀ {ls : List Str}, ls ≠ [] → (∀ s ∈ ls, sep ∉ s) →
      splitChar sep (joinChar sep ls) = ls := by
  intro ls
  induction ls with
  | nil => intro h; exact absurd rfl h
  | cons a rest ih =>
    intro _ hsep
    cases rest with
    | nil =>
      show splitChar sep a = [a]
      exact splitChar_of_not_mem (hsep a (by simp))
    | cons r t =>
      rw [joinChar_cons_of_ne_nil (by simp)]
      rw [splitChar_unfold,
        breakAtSep_append_not_mem (joinChar sep (r :: t)) (hsep a (by simp))]
      show a :: splitChar sep (joinChar sep (r :: t)) = a :: r :: t
      rw [ih (by simp) (fun s hs => hsep s (List.mem_cons_of_mem _ hs))]

theorem getLastD_of_ne_nil {α : Type} :
    ∀ {l : List α} (d d' : α), l ≠ [] → l.getLastD d = l.getLastD d' := by
  intro l
  induction l with
  | nil => intro d d' h; exact absurd rfl h
  | cons a rest ih =>
    intro d d' _
    cases rest with
    | nil => rfl
    | cons r t => simp only [List.getLastD_cons]

theorem getLastD_mem {α : Type} :
    ∀ {l : List α} (d : α), l ≠ [] → l.getLastD d ∈ l := by
  intro l
  induction l with
  | nil => intro d h; exact absurd rfl h
  | cons a rest ih =>
    intro d _
    cases rest with
    | nil => simp
    | cons r t =>
      have h : (r :: t).getLastD a ∈ r :: t := ih a (by simp)
      simp only [List.getLastD_cons] at h ⊢
      exact List.mem_cons_of_mem _ h

theorem lastTok_of_not_mem {sep : Char} {l : Str} (h : sep ∉ l) :
    lastTok sep l = l := by
  simp [lastTok, splitChar_of_not_mem h]

theorem lastTok_append_sep {sep : Char} :
    ∀ (l1 l2 : Str), lastTok sep (l1 ++ sep :: l2) = lastTok sep l2 := by
  have key : ∀ (n : Nat) (l1 l2 : Str), l1.length ≤ n →
      lastTok sep (l1 ++ sep :: l2) = lastTok sep l2 := by
    intro n
    induction n with
    | zero =>
      intro l1 l2 hn
      have : l1 = [] := List.length_eq_zero.mp (Nat.le_zero.mp hn)
      subst this
      simp only [List.nil_append, lastTok]
      rw [splitChar_unfold]
      have : breakAtSep sep (sep :: l2) = some ([], l2) := by
        simp [breakAtSep]
      rw [this]
      show ([] :: splitChar sep l2).getLastD [] = (splitChar sep l2).getLastD []
      rw [List.getLastD_cons]
    | succ n ih =>
      intro l1 l2 hn
      by_cases hmem : sep ∈ l1
      · cases hb : breakAtSep sep l1 with
        | none => exact absurd (breakAtSep_eq_none.mp hb) (by simp [hmem])
        | some p =>
          obtain ⟨a, b⟩ := p
          have hlen := breakAtSep_some_length hb
          have hb2 := breakAtSep_append_some (sep :: l2) hb
          unfold lastTok
          rw [splitChar_unfold, hb2, List.getLastD_cons]
          have h3 : lastTok sep (b ++ sep :: l2) = lastTok sep l2 :=
            ih b l2 (by omega)
          unfold lastTok at h3
          rw [← h3]
          exact getLastD_of_ne_nil _ _ (splitChar_ne_nil sep (b ++ sep :: l2))
      · unfold lastTok
        rw [splitChar_unfold, breakAtSep_append_not_mem l2 hmem,
          List.getLastD_cons]
        exact getLastD_of_ne_nil _ _ (splitChar_ne_nil sep l2)
  intro l1 l2
  exact key l1.length l1 l2 (le_refl _)

theorem exists_sep_decomp {sep : Char} :
    ∀ {l : Str}, sep ∈ l → ∃ l1 l2, l = l1 ++ sep :: l2 ∧ sep ∉ l2 := by
  intro l
  induction l with
  | nil => intro h; simp at h
  | cons c rest ih =>
    intro h
    by_cases hmem : sep ∈ rest
    · obtain ⟨l1, l2, hdec, hno⟩ := ih hmem
      exact ⟨c :: l1, l2, by simp [hdec], hno⟩
    · have hc : c = sep := by
        rcases List.mem_cons.mp h with h1 | h2
        · exact h1.symm
        · exact absurd h2 hmem
      subst hc
      exact ⟨[], rest, rfl, hmem⟩

theorem splitN_length {sep : Char} :
    ∀ (n : Nat) (l : Str),
      (splitN sep n l).length = min ((splitChar sep l).length) (n + 1) := by
  intro n
  induction n with
  | zero =>
    intro l
    have h1 : 0 < (splitChar sep l).length :=
      List.length_pos.mpr (splitChar_ne_nil sep l)
    simp only [splitN, List.length_singleton]
    omega
  | succ n ih =>
    intro l
    cases hb : breakAtSep sep l with
    | none =>
      have h1 : splitChar sep l = [l] := by rw [splitChar_unfold, hb]
      simp [splitN, hb, h1]
    | some p =>
      obtain ⟨a, b⟩ := p
      have h1 : splitChar sep l = a :: splitChar sep b := by
        rw [splitChar_unfold, hb]
      simp only [splitN, hb, List.length_cons, ih b, h1]
      omega

theorem splitN_getLastD {sep : Char} :
    ∀ (n : Nat) (l : Str), n < (splitChar sep l).length →
      (splitN sep n l).getLastD [] = joinChar sep ((splitChar sep l).drop n) := by
  intro n
  induction n with
  | zero =>
    intro l _
    simp only [splitN, List.getLastD_cons, List.getLastD_nil, List.drop_zero]
    exact (joinChar_splitChar sep l).symm
  | succ n ih =>
    intro l hn
    cases hb : breakAtSep sep l with
    | none =>
      have h1 : splitChar sep l = [l] := by rw [splitChar_unfold, hb]
      rw [h1] at hn
      simp at hn
    | some p =>
      obtain ⟨a, b⟩ := p
      have h1 : splitChar sep l = a :: splitChar sep b := by
        rw [splitChar_unfold, hb]
      rw [h1] at hn
      simp only [List.length_cons] at hn
      simp only [splitN, hb, List.getLastD_cons, h1, List.drop_succ_cons]
      rw [getLastD_of_ne_nil a [] (splitN_ne_nil sep n b)]
      exact ih b (by omega)

theorem isPrefixOf_iff_exists :
    ∀ (p l : Str), p.isPrefixOf l = true ↔ ∃ r, l = p ++ r := by
  intro p
  induction p with
  | nil => intro l; simp [List.isPrefixOf]
  | cons a as ih =>
    intro l
    cases l with
    | nil => simp [List.isPrefixOf]
    | cons b bs =>
      simp only [List.isPrefixOf, Bool.and_eq_true, beq_iff_eq, ih bs,
        List.cons_append, List.cons.injEq]
      constructor
      · rintro ⟨h1, r, h2⟩; exact ⟨r, h1.symm, h2⟩
      · rintro ⟨r, h1, h2⟩; exact ⟨h1.symm, r, h2⟩

theorem removeAllN_fuel {pat : Str} :
    ∀ (f1 f2 : Nat) (l : Str), l.length ≤ f1 → l.length ≤ f2 →
      removeAllN pat f1 l = removeAllN pat f2 l := by
  intro f1
  induction f1 with
  | zero =>
    intro f2 l h1 _
    have : l = [] := List.length_eq_zero.mp (Nat.le_zero.mp h1)
    subst this
    cases f2 <;> rfl
  | succ f1 ih =>
    intro f2 l h1 h2
    cases l with
    | nil => cases f2 <;> rfl
    | cons c rest =>
      cases f2 with
      | zero => simp at h2
      | succ f2 =>
        simp only [removeAllN]
        by_cases hc : pat ≠ [] ∧ pat.isPrefixOf (c :: rest)
        · rw [if_pos hc, if_pos hc]
          have hplen : 0 < pat.length := List.length_pos.mpr hc.1
          have hlen : ((c :: rest).drop pat.length).length ≤ rest.length := by
            simp only [List.length_drop, List.length_cons]
            omega
          simp only [List.length_cons] at h1 h2
          exact ih f2 _ (by omega) (by omega)
        · rw [if_neg hc, if_neg hc]
          simp only [List.length_cons] at h1 h2
          rw [ih f2 rest (by omega) (by omega)]

theorem removeAll_cons_unfold (pat : Str) (c : Char) (rest : Str) :
    removeAll pat (c :: rest) =
      if pat ≠ [] ∧ pat.isPrefixOf (c :: rest) then
        removeAll pat ((c :: rest).drop pat.length)
      else c :: removeAll pat rest := by
  show removeAllN pat (rest.length + 1) (c :: rest) = _
  simp only [removeAllN]
  by_cases hc : pat ≠ [] ∧ pat.isPrefixOf (c :: rest)
  · rw [if_pos hc, if_pos hc]
    have hplen : 0 < pat.length := List.length_pos.mpr hc.1
    apply removeAllN_fuel
    · simp only [List.length_drop, List.length_cons]; omega
    · exact le_refl _
  · rw [if_neg hc, if_neg hc]
    rfl

theorem removeAll_of_head_not_mem {p : Char} {ps : Str} :
    ∀ {l : Str}, p ∉ l → removeAll (p :: ps) l = l := by
  intro l
  induction l with
  | nil => intro _; rfl
  | cons c rest ih =>
    intro h
    simp only [List.mem_cons, not_or] at h
    rw [removeAll_cons_unfold]
    have hpre : ¬ (p :: ps).isPrefixOf (c :: rest) = true := by
      intro hp
      obtain ⟨r, hr⟩ := (isPrefixOf_iff_exists _ _).mp hp
      simp only [List.cons_append, List.cons.injEq] at hr
      exact h.1 hr.1.symm
    rw [if_neg (by intro hc; exact hpre hc.2)]
    rw [ih h.2]

theorem removeAll_single (p : Char) :
    ∀ (l : Str), removeAll [p] l = l.filter (fun c => !(decide (c = p))) := by
  intro l
  induction l with
  | nil => rfl
  | cons c rest ih =>
    rw [removeAll_cons_unfold]
    by_cases hc : c = p
    · subst hc
      have hpre : [c].isPrefixOf (c :: rest) = true := by
        rw [isPrefixOf_iff_exists]
        exact ⟨rest, rfl⟩
      rw [if_pos ⟨by simp, hpre⟩]
      simp only [List.length_singleton, List.drop_succ_cons, List.drop_zero]
      rw [ih]
      simp [List.filter_cons]
    · have hpre : ¬ [p].isPrefixOf (c :: rest) = true := by
        intro hp
        obtain ⟨r, hr⟩ := (isPrefixOf_iff_exists _ _).mp hp
        simp only [List.cons_append, List.nil_append, List.cons.injEq] at hr
        exact hc hr.1
      rw [if_neg (by intro h2; exact hpre h2.2)]
      rw [ih]
      simp [List.filter_cons, hc]

theorem mem_removeAll {pat : Str} {c : Char} (hcp : c ∉ pat) :
    ∀ {l : Str}, c ∈ l → c ∈ removeAll pat l := by
  have key : ∀ (n : Nat) (l : Str), l.length ≤ n → c ∈ l → c ∈ removeAll pat l := by
    intro n
    induction n with
    | zero =>
      intro l hn hc
      have : l = [] := List.length_eq_zero.mp (Nat.le_zero.mp hn)
      subst this
      simp at hc
    | succ n ih =>
      intro l hn hc
      cases l with
      | nil => simp at hc
      | cons d rest =>
        rw [removeAll_cons_unfold]
        by_cases hsplit : pat ≠ [] ∧ pat.isPrefixOf (d :: rest)
        · rw [if_pos hsplit]
          obtain ⟨r, hr⟩ := (isPrefixOf_iff_exists _ _).mp hsplit.2
          have hplen : 0 < pat.length := List.length_pos.mpr hsplit.1
          have hdrop : (d :: rest).drop pat.length = r := by
            rw [hr, List.drop_left]
          rw [hdrop]
          have hcr : c ∈ r := by
            rw [hr] at hc
            rcases List.mem_append.mp hc with h1 | h2
            · exact absurd h1 hcp
            · exact h2
          have hrlen : r.length ≤ n := by
            have : (d :: rest).length = pat.length + r.length := by
              rw [hr, List.length_append]
            simp only [List.length_cons] at this hn
            omega
          exact ih r hrlen hcr
        · rw [if_neg hsplit]
          rcases List.mem_cons.mp hc with h1 | h2
          · exact h1 ▸ List.mem_cons_self _ _
          · simp only [List.length_cons] at hn
            exact List.mem_cons_of_mem _ (ih rest (by omega) h2)
  intro l
  exact key l.length l (le_refl _)

theorem removeAll_append_self {pat rest : Str} (h : pat ≠ []) :
    removeAll pat (pat ++ rest) = removeAll pat rest := by
  cases pat with
  | nil => exact absurd rfl h
  | cons p ps =>
    have heq : (p :: ps) ++ rest = p :: (ps ++ rest) := rfl
    rw [heq, removeAll_cons_unfold]
    have hpre : (p :: ps).isPrefixOf (p :: (ps ++ rest)) = true := by
      rw [isPrefixOf_iff_exists]
      exact ⟨rest, rfl⟩
    rw [if_pos ⟨by simp, hpre⟩, ← heq, List.drop_left]

theorem removeAll_of_not_occursIn {pat : Str} :
    ∀ {l : Str}, occursIn pat l = false → removeAll pat l = l := by
  intro l
  induction l with
  | nil => intro _; rfl
  | cons c rest ih =>
    intro h
    simp only [occursIn, Bool.or_eq_false_iff] at h
    rw [removeAll_cons_unfold, if_neg (by intro hc; simp [h.1] at hc), ih h.2]

/-! ### Lemmas about the wildcard matcher -/

theorem rmatch_nil_iff (e : Str) : rmatch [] e = true ↔ e = [] := by
  simp [rmatch]

theorem rmatch_append :
    ∀ (as bs : List RAtom) (e1 e2 : Str), rmatch as e1 = true →
      rmatch bs e2 = true → rmatch (as ++ bs) (e1 ++ e2) = true := by
  intro as
  induction as with
  | nil =>
    intro bs e1 e2 h1 h2
    have : e1 = [] := (rmatch_nil_iff e1).mp h1
    subst this
    simpa using h2
  | cons a as ih =>
    intro bs e1 e2 h1 h2
    cases a with
    | lit c =>
      cases e1 with
      | nil => simp [rmatch] at h1
      | cons d ds =>
        simp only [rmatch, Bool.and_eq_true, decide_eq_true_eq] at h1
        simp only [List.cons_append, rmatch, Bool.and_eq_true,
          decide_eq_true_eq]
        exact ⟨h1.1, ih bs ds e2 h1.2 h2⟩
    | plus =>
      simp only [rmatch, List.any_eq_true, List.mem_range,
        Bool.and_eq_true] at h1
      obtain ⟨n, hn, hseg, hrest⟩ := h1
      simp only [List.cons_append, rmatch, List.any_eq_true, List.mem_range,
        Bool.and_eq_true]
      refine ⟨n, ?_, ?_, ?_⟩
      · simp only [List.length_append]; omega
      · rw [List.take_append_of_le_length (by omega)]
        exact hseg
      · rw [List.drop_append_of_le_length (by omega)]
        exact ih bs _ e2 hrest h2
    | hash =>
      simp only [rmatch, List.any_eq_true, List.mem_range] at h1
      obtain ⟨n, hn, hrest⟩ := h1
      simp only [List.cons_append, rmatch, List.any_eq_true, List.mem_range]
      refine ⟨n, ?_, ?_⟩
      · simp only [List.length_append]; omega
      · rw [List.drop_append_of_le_length (by omega)]
        exact ih bs _ e2 hrest h2

theorem rmatch_split :
    ∀ (as bs : List RAtom) (e : Str), rmatch (as ++ bs) e = true →
      ∃ e1 e2, e = e1 ++ e2 ∧ rmatch as e1 = true ∧ rmatch bs e2 = true := by
  intro as
  induction as with
  | nil =>
    intro bs e h
    exact ⟨[], e, rfl, by simp [rmatch], by simpa using h⟩
  | cons a as ih =>
    intro bs e h
    cases a with
    | lit c =>
      cases e with
      | nil => simp [rmatch] at h
      | cons d ds =>
        simp only [List.cons_append, rmatch, Bool.and_eq_true,
          decide_eq_true_eq] at h
        obtain ⟨e1, e2, hsplit, hm1, hm2⟩ := ih bs ds h.2
        refine ⟨d :: e1, e2, by simp [hsplit], ?_, hm2⟩
        simp only [rmatch, Bool.and_eq_true, decide_eq_true_eq]
        exact ⟨h.1, hm1⟩
    | plus =>
      simp only [List.cons_append, rmatch, List.any_eq_true, List.mem_range,
        Bool.and_eq_true] at h
      obtain ⟨n, hn, hseg, hrest⟩ := h
      obtain ⟨e1, e2, hsplit, hm1, hm2⟩ := ih bs _ hrest
      have htake : (e.take (n + 1)).length = n + 1 := by
        rw [List.length_take]; omega
      refine ⟨e.take (n + 1) ++ e1, e2, ?_, ?_, hm2⟩
      · rw [List.append_assoc, ← hsplit, List.take_append_drop]
      · simp only [rmatch, List.any_eq_true, List.mem_range, Bool.and_eq_true]
        refine ⟨n, ?_, ?_, ?_⟩
        · simp only [List.length_append, htake]; omega
        · rw [List.take_left' htake]
          exact hseg
        · rw [List.drop_left' htake]
          exact hm1
    | hash =>
      simp only [List.cons_append, rmatch, List.any_eq_true,
        List.mem_range] at h
      obtain ⟨n, hn, hrest⟩ := h
      obtain ⟨e1, e2, hsplit, hm1, hm2⟩ := ih bs _ hrest
      have htake : (e.take n).length = n := by
        rw [List.length_take]; omega
      refine ⟨e.take n ++ e1, e2, ?_, ?_, hm2⟩
      · rw [List.append_assoc, ← hsplit, List.take_append_drop]
      · simp only [rmatch, List.any_eq_true, List.mem_range]
        refine ⟨n, ?_, ?_⟩
        · simp only [List.length_append, htake]; omega
        · rw [List.drop_left' htake]
          exact hm1

theorem toAtoms_append (s1 s2 : Str) :
    toAtoms (s1 ++ s2) = toAtoms s1 ++ toAtoms s2 := by
  simp [toAtoms]

theorem toAtoms_lit {c : Char} (h1 : c ≠ '+') (h2 : c ≠ '#') (s : Str) :
    toAtoms (c :: s) = RAtom.lit c :: toAtoms s := by
  simp [toAtoms, h1, h2]

theorem rmatch_toAtoms_self :
    ∀ {s : Str}, (∀ c ∈ s, c ≠ '+' ∧ c ≠ '#') → rmatch (toAtoms s) s = true := by
  intro s
  induction s with
  | nil => simp [toAtoms, rmatch]
  | cons c rest ih =>
    intro h
    have hc := h c (by simp)
    rw [toAtoms_lit hc.1 hc.2]
    simp only [rmatch, Bool.and_eq_true, decide_eq_true_eq]
    exact ⟨by simp, ih (fun d hd => h d (List.mem_cons_of_mem _ hd))⟩

theorem rmatch_plus_word {w : Str} (hne : w ≠ [])
    (hw : ∀ c ∈ w, isWordChar c = true) : rmatch [RAtom.plus] w = true := by
  have hlen : 0 < w.length := List.length_pos.mpr hne
  simp only [rmatch, List.any_eq_true, List.mem_range, Bool.and_eq_true]
  refine ⟨w.length - 1, by omega, ?_, ?_⟩
  · have : w.length - 1 + 1 = w.length := by omega
    rw [this, List.take_length]
    simp only [plusSeg, Bool.or_eq_true, Bool.and_eq_true, List.all_eq_true]
    right
    constructor
    · simp [List.isEmpty_iff, hne]
    · exact hw
  · have : w.length - 1 + 1 = w.length := by omega
    rw [this, List.drop_length]
    simp [rmatch]

theorem rmatch_ends_lit {as : List RAtom} {c : Char} {e : Str}
    (h : rmatch (as ++ [RAtom.lit c]) e = true) : ∃ e', e = e' ++ [c] := by
  obtain ⟨e1, e2, hsplit, -, hm2⟩ := rmatch_split as [RAtom.lit c] e h
  cases e2 with
  | nil => simp [rmatch] at hm2
  | cons d ds =>
    simp only [rmatch, Bool.and_eq_true, decide_eq_true_eq] at hm2
    have : ds = [] := hm2.2
    subst this
    exact ⟨e1, by rw [hsplit, hm2.1]⟩

/-! ### Lemmas about the textual regex construction -/

theorem expandStr_append :
    ∀ (l1 l2 : Str), expandStr (l1 ++ l2) = expandStr l1 ++ expandStr l2 := by
  intro l1 l2
  induction l1 with
  | nil => rfl
  | cons c rest ih => simp [expandStr, ih]

theorem expandStr_eq_self :
    ∀ {l : Str}, (∀ c ∈ l, c ≠ '+' ∧ c ≠ '#') → expandStr l = l := by
  intro l
  induction l with
  | nil => intro _; rfl
  | cons c rest ih =>
    intro h
    have hc := h c (by simp)
    simp only [expandStr, expandChar, if_neg hc.1, if_neg hc.2]
    rw [ih (fun d hd => h d (List.mem_cons_of_mem _ hd))]
    rfl

theorem mem_expandStr_cases {c0 : Char} :
    ∀ {l : Str}, c0 ∈ expandStr l →
      c0 ∈ l ∨ c0 ∈ "(\\w+|\\+)".data ∨ c0 ∈ ".*".data := by
  intro l
  induction l with
  | nil => intro h; simp [expandStr] at h
  | cons c rest ih =>
    intro h
    simp only [expandStr, List.mem_append] at h
    rcases h with h1 | h2
    · by_cases hp : c = '+'
      · subst hp
        simp only [expandChar, if_pos rfl] at h1
        exact Or.inr (Or.inl h1)
      · by_cases hh : c = '#'
        · subst hh
          rw [show expandChar '#' = ".*".data from rfl] at h1
          exact Or.inr (Or.inr h1)
        · simp only [expandChar, if_neg hp, if_neg hh,
            List.mem_singleton] at h1
          subst h1
          exact Or.inl (by simp)
    · rcases ih h2 with h3 | h4
      · exact Or.inl (List.mem_cons_of_mem _ h3)
      · exact Or.inr h4

theorem slash_mem_expandStr {l : Str} (h : '/' ∈ expandStr l) : '/' ∈ l := by
  rcases mem_expandStr_cases h with h1 | h2 | h3
  · exact h1
  · simp at h2
  · simp at h3

theorem paren_mem_expandStr :
    ∀ {l : Str}, '+' ∈ l → '(' ∈ expandStr l := by
  intro l
  induction l with
  | nil => intro h; simp at h
  | cons c rest ih =>
    intro h
    simp only [expandStr, List.mem_append]
    rcases List.mem_cons.mp h with h1 | h2
    · left
      rw [← h1]
      simp [expandChar]
    · exact Or.inr (ih h2)

theorem safeChar_excl {c : Char} (h : safeChar c = true) :
    c ≠ '$' ∧ c ≠ '^' ∧ c ≠ '.' ∧ c ≠ '(' := by
  refine ⟨?_, ?_, ?_, ?_⟩ <;> (rintro rfl; revert h; decide)

theorem entryChar_safe {c : Char} (h : entryChar c = true) : safeChar c = true := by
  simp only [entryChar, Bool.or_eq_true] at h
  simp only [safeChar, Bool.or_eq_true]
  tauto

theorem entryChar_excl {c : Char} (h : entryChar c = true) :
    c ≠ '+' ∧ c ≠ '#' ∧ c ≠ '(' := by
  refine ⟨?_, ?_, ?_⟩ <;> (rintro rfl; revert h; decide)

theorem removal_chain_of_safe {l : Str}
    (hsafe : ∀ c ∈ l, safeChar c = true) :
    removeAll "^".data (removeAll ".*".data (removeAll "$".data (l ++ ['$'])))
      = l := by
  have hfl : l.filter (fun c => !(decide (c = '$'))) = l := by
    rw [List.filter_eq_self]
    intro a ha
    simp only [Bool.not_eq_true', decide_eq_false_iff_not]
    exact (safeChar_excl (hsafe a ha)).1
  have e1 : removeAll "$".data (l ++ ['$']) = l := by
    rw [show "$".data = ['$'] from rfl, removeAll_single, List.filter_append,
      hfl]
    simp
  have e2 : removeAll ".*".data l = l := by
    rw [show ".*".data = ['.', '*'] from rfl]
    apply removeAll_of_head_not_mem
    intro hmem
    exact (safeChar_excl (hsafe '.' hmem)).2.2.1 rfl
  have e3 : removeAll "^".data l = l := by
    rw [show "^".data = ['^'] from rfl, removeAll_single, List.filter_eq_self]
    intro a ha
    simp only [Bool.not_eq_true', decide_eq_false_iff_not]
    exact (safeChar_excl (hsafe a ha)).2.1
  rw [e1, e2, e3]

theorem removal_chain_caret {l : Str}
    (hsafe : ∀ c ∈ l, safeChar c = true) :
    removeAll "^".data
      (removeAll ".*".data (removeAll "$".data (('^' :: l) ++ ['$']))) = l := by
  have hfl : l.filter (fun c => !(decide (c = '$'))) = l := by
    rw [List.filter_eq_self]
    intro a ha
    simp only [Bool.not_eq_true', decide_eq_false_iff_not]
    exact (safeChar_excl (hsafe a ha)).1
  have e1 : removeAll "$".data (('^' :: l) ++ ['$']) = '^' :: l := by
    rw [show "$".data = ['$'] from rfl, removeAll_single, List.filter_append,
      List.filter_cons]
    simp only [hfl]
    simp
  have e2 : removeAll ".*".data ('^' :: l) = '^' :: l := by
    rw [show ".*".data = ['.', '*'] from rfl]
    apply removeAll_of_head_not_mem
    intro hmem
    rcases List.mem_cons.mp hmem with h1 | h2
    · exact absurd h1 (by decide)
    · exact (safeChar_excl (hsafe '.' h2)).2.2.1 rfl
  have e3 : removeAll "^".data ('^' :: l) = l := by
    rw [show "^".data = ['^'] from rfl, removeAll_single, List.filter_cons]
    have : l.filter (fun c => !(decide (c = '^'))) = l := by
      rw [List.filter_eq_self]
      intro a ha
      simp only [Bool.not_eq_true', decide_eq_false_iff_not]
      exact (safeChar_excl (hsafe a ha)).2.1
    simp [this]
  rw [e1, e2, e3]

theorem lastTok_buildRegex_of_not_mem {esd : Str} (hmem : '/' ∉ esd) :
    lastTok '/' (buildRegex esd) = '^' :: expandStr esd ++ ['$'] := by
  apply lastTok_of_not_mem
  intro h
  simp only [buildRegex] at h
  rcases List.mem_cons.mp h with h1 | h2
  · exact absurd h1.symm (by decide)
  · rcases List.mem_append.mp h2 with h3 | h4
    · exact hmem (slash_mem_expandStr h3)
    · simp at h4

theorem lastTok_buildRegex_of_decomp {l1 l2 : Str} (hno : '/' ∉ l2) :
    lastTok '/' (buildRegex (l1 ++ '/' :: l2)) = expandStr l2 ++ ['$'] := by
  have hexp : buildRegex (l1 ++ '/' :: l2) =
      ('^' :: expandStr l1) ++ '/' :: (expandStr l2 ++ ['$']) := by
    simp only [buildRegex, expandStr_append]
    have : expandStr ('/' :: l2) = '/' :: expandStr l2 := by
      simp [expandStr, expandChar]
    rw [this]
    simp
  rw [hexp, lastTok_append_sep]
  apply lastTok_of_not_mem
  intro h
  rcases List.mem_append.mp h with h1 | h2
  · exact hno (slash_mem_expandStr h1)
  · simp at h2

theorem regexLastToken_eq_lastTok {esd : Str}
    (hsafe : ∀ c ∈ lastTok '/' esd, safeChar c = true)
    (hw : ∀ c ∈ lastTok '/' esd, c ≠ '+' ∧ c ≠ '#') :
    regexLastToken esd = lastTok '/' esd := by
  by_cases hmem : '/' ∈ esd
  · obtain ⟨l1, l2, hdec, hno⟩ := exists_sep_decomp hmem
    have hlt : lastTok '/' esd = l2 := by
      rw [hdec, lastTok_append_sep, lastTok_of_not_mem hno]
    rw [hlt] at hsafe hw
    unfold regexLastToken
    rw [hdec, lastTok_buildRegex_of_decomp hno, expandStr_eq_self hw,
      removal_chain_of_safe hsafe, lastTok_append_sep,
      lastTok_of_not_mem hno]
  · have hlt : lastTok '/' esd = esd := lastTok_of_not_mem hmem
    rw [hlt] at hsafe hw
    unfold regexLastToken
    rw [lastTok_buildRegex_of_not_mem hmem, expandStr_eq_self hw, hlt]
    exact removal_chain_caret hsafe

theorem paren_mem_regexLastToken {esd : Str}
    (hplus : '+' ∈ lastTok '/' esd) : '(' ∈ regexLastToken esd := by
  have hd : "$".data = ['$'] := rfl
  have hds : ".*".data = ['.', '*'] := rfl
  have hc : "^".data = ['^'] := rfl
  have chain : ∀ {X : Str}, '(' ∈ X →
      '(' ∈ removeAll "^".data (removeAll ".*".data (removeAll "$".data X)) := by
    intro X hX
    rw [hd, hds, hc, removeAll_single]
    have s1 : '(' ∈ X.filter (fun c => !(decide (c = '$'))) :=
      List.mem_filter.mpr ⟨hX, by decide⟩
    have s2 : '(' ∈ removeAll ['.', '*'] (X.filter (fun c => !(decide (c = '$')))) :=
      mem_removeAll (by decide) s1
    rw [removeAll_single]
    exact List.mem_filter.mpr ⟨s2, by decide⟩
  by_cases hmem : '/' ∈ esd
  · obtain ⟨l1, l2, hdec, hno⟩ := exists_sep_decomp hmem
    have hlt : lastTok '/' esd = l2 := by
      rw [hdec, lastTok_append_sep, lastTok_of_not_mem hno]
    rw [hlt] at hplus
    unfold regexLastToken
    rw [hdec, lastTok_buildRegex_of_decomp hno]
    exact chain (List.mem_append_left _ (paren_mem_expandStr hplus))
  · have hlt : lastTok '/' esd = esd := lastTok_of_not_mem hmem
    rw [hlt] at hplus
    unfold regexLastToken
    rw [lastTok_buildRegex_of_not_mem hmem]
    refine chain ?_
    exact List.mem_cons_of_mem _ (List.mem_append_left _ (paren_mem_expandStr hplus))

/-! ### Lemmas about the engine pieces -/

theorem getD_default_or_mem {α : Type} :
    ∀ (l : List α) (i : Nat) (d : α), l.getD i d = d ∨ l.getD i d ∈ l := by
  intro l
  induction l with
  | nil => intro i d; simp
  | cons a rest ih =>
    intro i d
    cases i with
    | zero => simp
    | succ i =>
      rcases ih i d with h1 | h2
      · simp only [List.getD_cons_succ]
        exact Or.inl h1
      · simp only [List.getD_cons_succ]
        exact Or.inr (List.mem_cons_of_mem _ h2)

theorem lastLevel_default_or_mem (th : TopicHierarchy) :
    th.lastLevel = [] ∨ th.lastLevel ∈ th.topics := by
  by_cases h : th.topics = []
  · left; simp [TopicHierarchy.lastLevel, h]
  · right; exact getLastD_mem [] h

theorem getD_take {α : Type} :
    ∀ (l : List α) (n i : Nat) (d : α), i < n →
      (l.take n).getD i d = l.getD i d := by
  intro l
  induction l with
  | nil => intro n i d _; simp
  | cons a rest ih =>
    intro n i d hin
    cases n with
    | zero => omega
    | succ n =>
      cases i with
      | zero => simp
      | succ i =>
        simp only [List.take_succ_cons, List.getD_cons_succ]
        exact ih n i d (by omega)

theorem validate_core_strict_mem {th : TopicHierarchy} :
    ∀ {toks : List Str} {i : Nat}, th.validate_core true i toks = true →
      ∀ tok ∈ toks, tok = [] ∨ ∃ j, tok ∈ th.topics.getD j [] := by
  intro toks
  induction toks with
  | nil => intro i _ tok htok; simp at htok
  | cons v rest ih =>
    intro i h tok htok
    simp only [TopicHierarchy.validate_core] at h
    by_cases hv : v = []
    · rw [if_pos hv] at h
      rcases List.mem_cons.mp htok with h1 | h2
      · exact Or.inl (h1.trans hv)
      · exact ih h tok h2
    · rw [if_neg hv, if_neg (by simp)] at h
      by_cases hw : v = "+".data ∨ v = "#".data
      · rw [if_pos hw, if_neg (by simp)] at h
        exact absurd h (by simp)
      · rw [if_neg hw] at h
        by_cases hmem : v ∈ th.topics.getD i []
        · rw [if_pos hmem] at h
          rcases List.mem_cons.mp htok with h1 | h2
          · exact Or.inr ⟨i, h1 ▸ hmem⟩
          · exact ih h tok h2
        · rw [if_neg hmem] at h
          exact absurd h (by simp)

theorem validate_core_congr_take6 {th th' : TopicHierarchy}
    (htake : th'.topics.take 6 = th.topics.take 6) :
    ∀ (toks : List Str) (i : Nat) (strict : Bool), i + toks.length ≤ 6 →
      th'.validate_core strict i toks = th.validate_core strict i toks := by
  intro toks
  induction toks with
  | nil => intro i strict _; rfl
  | cons v rest ih =>
    intro i strict hlen
    simp only [List.length_cons] at hlen
    have hgetD : th'.topics.getD i [] = th.topics.getD i [] := by
      rw [← getD_take th'.topics 6 i [] (by omega),
        ← getD_take th.topics 6 i [] (by omega), htake]
    simp only [TopicHierarchy.validate_core, hgetD]
    rw [ih (i + 1) strict (by omega)]

theorem mem_core_or_esd {t : Str} {c : Char} (hc : c ∈ t) (hne : c ≠ '/') :
    (∃ s ∈ coreOf t, c ∈ s) ∨ c ∈ esdOf t := by
  obtain ⟨s, hs, hcs⟩ := exists_mem_splitChar hc hne
  rw [show splitChar '/' t =
      (splitChar '/' t).take 6 ++ (splitChar '/' t).drop 6 from
    (List.take_append_drop 6 _).symm] at hs
  rcases List.mem_append.mp hs with h1 | h2
  · exact Or.inl ⟨s, h1, hcs⟩
  · exact Or.inr (mem_joinChar h2 hcs)

theorem esdOf_ne_nil_of_get1 {t : Str} {x : Str}
    (h : (splitChar '/' (esdOf t))[1]? = some x) : esdOf t ≠ [] := by
  intro hnil
  rw [hnil] at h
  simp [splitChar, splitN] at h

/-! ### Characterisation of the baseline validator -/

theorem validate_baseline_eq_true_iff (t : Str) :
    validate_baseline t = true ↔
      ('.' ∉ t ∧ (∃ c ∈ t, isCasedAscii c = true) ∧
       (∀ c ∈ t, c.isUpper = false) ∧ (∀ c ∈ t, c.toNat < 128) ∧
       ('#' ∈ t → t.findIdx (fun c => c = '#') = t.length - 1)) := by
  unfold validate_baseline
  split_ifs with h1 h2 h3 h4 h5
  · refine iff_of_false (by simp) ?_
    intro hcon
    exact hcon.1 h1
  · simp only [Bool.not_eq_true'] at h2
    refine iff_of_false (by simp) ?_
    rintro ⟨-, hex, hall, -, -⟩
    have hl : pyIslower t = true := by
      simp only [pyIslower, Bool.and_eq_true, List.any_eq_true,
        List.all_eq_true]
      refine ⟨hex, fun c hc => ?_⟩
      rw [hall c hc]
      rfl
    rw [hl] at h2
    exact absurd h2 (by simp)
  · simp only [Bool.not_eq_true'] at h3
    refine iff_of_false (by simp) ?_
    rintro ⟨-, -, -, hlt, -⟩
    have ha : pyIsascii t = true := by
      simp only [pyIsascii, List.all_eq_true]
      intro c hc
      simpa using hlt c hc
    rw [ha] at h3
    exact absurd h3 (by simp)
  · refine iff_of_false (by simp) ?_
    rintro ⟨-, -, -, -, hlast⟩
    exact h5 (hlast h4)
  · refine iff_of_true rfl ?_
    have hl : pyIslower t = true := by
      revert h2
      cases hp : pyIslower t <;> simp
    have ha : pyIsascii t = true := by
      revert h3
      cases hp : pyIsascii t <;> simp
    simp only [pyIslower, Bool.and_eq_true, List.any_eq_true,
      List.all_eq_true] at hl
    simp only [pyIsascii, List.all_eq_true] at ha
    refine ⟨h1, hl.1, ?_, ?_, fun _ => not_not.mp h5⟩
    · intro c hc
      have := hl.2 c hc
      revert this
      cases c.isUpper <;> simp
    · intro c hc
      simpa using ha c hc
  · refine iff_of_true rfl ?_
    have hl : pyIslower t = true := by
      revert h2
      cases hp : pyIslower t <;> simp
    have ha : pyIsascii t = true := by
      revert h3
      cases hp : pyIsascii t <;> simp
    simp only [pyIslower, Bool.and_eq_true, List.any_eq_true,
      List.all_eq_true] at hl
    simp only [pyIsascii, List.all_eq_true] at ha
    refine ⟨h1, hl.1, ?_, ?_, fun hmem => absurd hmem h4⟩
    · intro c hc
      have := hl.2 c hc
      revert this
      cases c.isUpper <;> simp
    · intro c hc
      simpa using ha c hc

/-! ### Claim theorems -/

/-- C1: the claim says validate never raises except on a null topic or
the bare separator.  The code raises IndexError on the well-formed
7-segment topic below in strict mode, because the strict branch indexes
the second piece of a single-segment ESD subtopic unguarded; the same
topic is handled without an exception in lenient mode. -/
theorem c1_indexerror_eval :
    thStd.validate (some "cache/a/wis2/ca-eccc-msc/data/core/weather".data)
        true = .error .indexError ∧
      thStd.validate (some "cache/a/wis2/ca-eccc-msc/data/core/weather".data)
        false = .ok false := by
  refine ⟨by decide, by decide⟩

/-- C2: the claim says any baseline failure makes the whole topic
invalid.  The code calls validate_baseline but discards its result, so
the baseline-violating topic below (uppercase final segment) validates
true in both modes via the experimental bypass. -/
theorem c2_baseline_discarded_eval :
    validate_baseline
        "cache/a/wis2/ca-eccc-msc/data/core/weather/experimental/FOO".data
      = false ∧
    thStd.validate
        (some "cache/a/wis2/ca-eccc-msc/data/core/weather/experimental/FOO".data)
        true = .ok true ∧
    thStd.validate
        (some "cache/a/wis2/ca-eccc-msc/data/core/weather/experimental/FOO".data)
        false = .ok true := by
  refine ⟨by decide, by decide, by decide⟩

/-- C10: the claim says the allocation-uniqueness step consults the
level-3 set loaded from the explicitly configured tables location.  The
code constructs TopicHierarchy() without the tables argument, so the
centre-id below validates true although it is allocated in the level-3
table at its configured location. -/
theorem c10_wrong_tables_eval :
    CentreId.init "xx-test".data (some "custom".data) =
        .ok ⟨"xx-test".data, "xx".data, "test".data, some "custom".data⟩ ∧
      CentreId.validate envC10
        ⟨"xx-test".data, "xx".data, "test".data, some "custom".data⟩ = true ∧
      "xx-test".data ∈
        (envC10.hierarchyAt (some "custom".data)).topics.getD 3 [] := by
  refine ⟨by decide, by decide, by decide⟩

/-- C7 counterexample: the claimed four reject conditions (dot,
uppercase, non-printable-ASCII, misplaced multi-level wildcard) differ
from the code on a digit-only topic (rejected by the code through
Python islower, accepted by the claimed conditions) and on a topic
containing an ASCII control character (accepted by the code, rejected
by the claimed printable-range condition). -/
theorem c7_counterexample :
    validate_baseline "123".data = false ∧
      baselineSpecFalse "123".data = false ∧
      validate_baseline ['a', Char.ofNat 1] = true ∧
      baselineSpecFalse ['a', Char.ofNat 1] = true := by
  refine ⟨by decide, by decide, by decide, by decide⟩

/-- C7 (amended): validateBaseline returns false iff the topic contains
a dot, or contains no ASCII-cased character at all, or contains an
uppercase character, or contains a character with code point at least
128, or its first multi-level wildcard character is not the final
character. -/
theorem c7_amended (t : Str) :
    validate_baseline t = false ↔
      ('.' ∈ t ∨ (¬ ∃ c ∈ t, isCasedAscii c = true) ∨
       (∃ c ∈ t, c.isUpper = true) ∨ (∃ c ∈ t, 128 ≤ c.toNat) ∨
       ('#' ∈ t ∧ t.findIdx (fun c => c = '#') ≠ t.length - 1)) := by
  have hiff := validate_baseline_eq_true_iff t
  constructor
  · intro h
    by_contra hcon
    push_neg at hcon
    obtain ⟨hc1, hc2, hc3, hc4, hc5⟩ := hcon
    have htrue : validate_baseline t = true := by
      refine hiff.mpr ⟨hc1, hc2, ?_, ?_, hc5⟩
      · intro c hc
        have := hc3 c hc
        revert this
        cases c.isUpper <;> simp
      · intro c hc
        have := hc4 c hc
        omega
    rw [h] at htrue
    exact absurd htrue (by simp)
  · intro h
    cases hb : validate_baseline t
    · rfl
    · exfalso
      obtain ⟨g1, g2, g3, g4, g5⟩ := hiff.mp hb
      rcases h with d1 | d2 | d3 | d4 | d5
      · exact g1 d1
      · exact d2 g2
      · obtain ⟨c, hc, hup⟩ := d3
        rw [g3 c hc] at hup
        exact absurd hup (by simp)
      · obtain ⟨c, hc, hge⟩ := d4
        have := g4 c hc
        omega
      · exact d5.2 (g5 d5.1)

/-- C3 counterexample: a topic containing the single-level wildcard
character is accepted in strict mode, because the experimental bypass
short-circuits the table check. -/
theorem c3_counterexample :
    '+' ∈ "cache/a/wis2/ca-eccc-msc/data/core/weather/experimental/+".data ∧
      thStd.validate
        (some "cache/a/wis2/ca-eccc-msc/data/core/weather/experimental/+".data)
        true = .ok true := by
  refine ⟨by decide, by decide⟩

/-- C3 (amended): a topic containing a wildcard character is rejected
in strict mode, provided the loaded tables contain no wildcard
characters and the topic does not qualify for the experimental bypass;
the bypass accepts such topics unconditionally, and a single-piece ESD
subtopic raises instead of returning. -/
theorem c3_amended (th : TopicHierarchy) (t : Str)
    (hclean : ∀ lvl ∈ th.topics, ∀ tok ∈ lvl, '+' ∉ tok ∧ '#' ∉ tok)
    (hwild : '+' ∈ t ∨ '#' ∈ t)
    (hesd : esdOf t ≠ [] →
      ∃ x, (splitChar '/' (esdOf t))[1]? = some x ∧ x ≠ "experimental".data) :
    th.validate (some t) true = .ok false := by
  have hchar : ∃ w, w ∈ t ∧ w ≠ '/' ∧ (w = '+' ∨ w = '#') := by
    rcases hwild with h | h
    · exact ⟨'+', h, by decide, Or.inl rfl⟩
    · exact ⟨'#', h, by decide, Or.inr rfl⟩
  obtain ⟨w, hwt, hws, hwpm⟩ := hchar
  have ht : t ≠ "/".data := by
    rintro rfl
    rcases hwpm with rfl | rfl <;> revert hwt <;> decide
  simp only [TopicHierarchy.validate]
  rw [if_neg ht]
  by_cases hcore : th.validate_core true 0 (coreOf t) = true
  · rcases mem_core_or_esd hwt hws with ⟨s, hsmem, hwmem⟩ | hwesd
    · exfalso
      rcases validate_core_strict_mem hcore s hsmem with h0 | ⟨j, hj⟩
      · rw [h0] at hwmem
        simp at hwmem
      · rcases getD_default_or_mem th.topics j [] with h1 | h1
        · rw [h1] at hj
          simp at hj
        · have hcl := hclean _ h1 s hj
          rcases hwpm with rfl | rfl
          · exact hcl.1 hwmem
          · exact hcl.2 hwmem
    · have hne : esdOf t ≠ [] := fun h0 => by
        rw [h0] at hwesd
        simp at hwesd
      obtain ⟨x, hx, hxe⟩ := hesd hne
      have hnm : esdOf t ∉ th.lastLevel := by
        intro hmem2
        rcases lastLevel_default_or_mem th with h0 | h0
        · rw [h0] at hmem2
          simp at hmem2
        · have hcl := hclean _ h0 _ hmem2
          rcases hwpm with rfl | rfl
          · exact hcl.1 hwesd
          · exact hcl.2 hwesd
      rw [if_pos hcore, if_pos hne]
      simp [TopicHierarchy.validate_esd_subtopic, hx, hnm, hxe]
  · rw [if_neg hcore]

/-- C3 witness. -/
theorem c3_witness :
    thStd.validate
        (some "cache/a/wis2/ca-eccc-msc/data/core/weather/+".data) true
      = .ok false :=
  c3_amended thStd _ (by decide) (by decide)
    (fun _ => ⟨"+".data, by decide, by decide⟩)

/-- C4: a topic whose ESD subtopic has at least two pieces with the
second literally experimental is accepted in both modes whenever its
core tokens validate; the verdict does not depend on anything beyond
the first six table levels (in particular not on the level-6 table). -/
theorem c4_experimental_bypass (th th' : TopicHierarchy) (t : Str)
    (strict : Bool) (htake : th'.topics.take 6 = th.topics.take 6)
    (hexp : (splitChar '/' (esdOf t))[1]? = some "experimental".data)
    (hcore : th.validate_core strict 0 (coreOf t) = true) :
    th'.validate (some t) strict = .ok true := by
  have hne : esdOf t ≠ [] := esdOf_ne_nil_of_get1 hexp
  have ht : t ≠ "/".data := by
    rintro rfl
    exact hne (by decide)
  have hlen : (coreOf t).length ≤ 6 := by
    simp only [coreOf, List.length_take]
    omega
  have hcore' : th'.validate_core strict 0 (coreOf t) = true := by
    rw [validate_core_congr_take6 htake (coreOf t) 0 strict (by omega)]
    exact hcore
  simp only [TopicHierarchy.validate]
  rw [if_neg ht, if_pos hcore', if_pos hne]
  cases strict with
  | true => simp [TopicHierarchy.validate_esd_subtopic, hexp]
  | false =>
    have hlen1 : 1 < (splitChar '/' (esdOf t)).length := by
      by_contra hcon
      rw [List.getElem?_eq_none (by omega)] at hexp
      exact absurd hexp (by simp)
    simp [TopicHierarchy.validate_esd_subtopic, hexp, hlen1]

/-- C4 witness. -/
theorem c4_witness :
    thStd.validate
        (some "cache/a/wis2/ca-eccc-msc/data/core/weather/experimental/x".data)
        true = .ok true :=
  c4_experimental_bypass thStd thStd _ true rfl (by decide) (by decide)

theorem childSet_nodup (th : TopicHierarchy) (t : Str) :
    (th.childSet t).Nodup := by
  unfold TopicHierarchy.childSet
  dsimp only
  split_ifs <;> exact List.nodup_dedup _

/-- C9: for every topic other than the bare separator, list_children
never returns an empty sequence; it raises the invalid-topic error when
validate returns false, raises the no-match error when the computed
child set is empty, and any returned sequence is non-empty and
duplicate-free. -/
theorem c9_list_children_raises (th : TopicHierarchy) (t : Str)
    (hne : t ≠ "/".data) :
    (∀ L, th.list_children (some t) = .ok L → L ≠ [] ∧ L.Nodup) ∧
    (th.validate (some t) true = .ok false →
      th.list_children (some t) = .error .invalidTopic) ∧
    (th.validate (some t) true = .ok true → th.childSet t = [] →
      th.list_children (some t) = .error .noMatch) := by
  refine ⟨?_, ?_, ?_⟩
  · intro L hL
    simp only [TopicHierarchy.list_children] at hL
    rw [if_neg hne] at hL
    cases hv : th.validate (some t) true with
    | error e =>
      rw [hv] at hL
      exact absurd hL (by simp)
    | ok b =>
      cases b with
      | false =>
        rw [hv] at hL
        exact absurd hL (by simp)
      | true =>
        rw [hv] at hL
        by_cases hcs : th.childSet t = []
        · rw [if_pos hcs] at hL
          exact absurd hL (by simp)
        · rw [if_neg hcs] at hL
          simp only [Except.ok.injEq] at hL
          subst hL
          exact ⟨hcs, childSet_nodup th t⟩
  · intro hv
    simp only [TopicHierarchy.list_children]
    rw [if_neg hne, hv]
  · intro hv hcs
    simp only [TopicHierarchy.list_children]
    rw [if_neg hne, hv, if_pos hcs]

/-- C9 witness. -/
theorem c9_witness :
    (∀ L, thStd.list_children (some "cache".data) = .ok L →
        L ≠ [] ∧ L.Nodup) ∧
      (thStd.validate (some "cache".data) true = .ok false →
        thStd.list_children (some "cache".data) = .error .invalidTopic) ∧
      (thStd.validate (some "cache".data) true = .ok true →
        thStd.childSet "cache".data = [] →
        thStd.list_children (some "cache".data) = .error .noMatch) :=
  c9_list_children_raises thStd "cache".data (by decide)

theorem mem_of_mem_lastTok {l : Str} {c : Char} (h : c ∈ lastTok '/' l) :
    c ∈ l := by
  unfold lastTok at h
  exact mem_of_mem_splitChar (getLastD_mem [] (splitChar_ne_nil '/' l)) h

theorem lastTok_nil : lastTok '/' ([] : Str) = [] := rfl

theorem lastTok_eq_nil_cases {esd : Str} (h : lastTok '/' esd = []) :
    esd = [] ∨ ∃ e', esd = e' ++ ['/'] := by
  by_cases hmem : '/' ∈ esd
  · obtain ⟨l1, l2, hdec, hno⟩ := exists_sep_decomp hmem
    rw [hdec, lastTok_append_sep, lastTok_of_not_mem hno] at h
    subst h
    exact Or.inr ⟨l1, by simp [hdec]⟩
  · rw [lastTok_of_not_mem hmem] at h
    exact Or.inl h

theorem validate_esd_lenient (th : TopicHierarchy) (esd : Str) :
    th.validate_esd_subtopic esd false =
      (if 1 < (splitChar '/' esd).length ∧
          (splitChar '/' esd)[1]? = some "experimental".data then
        Except.ok true
      else
        Except.ok (th.lastLevel.any (fun e =>
          rmatch (toAtoms esd) e &&
          !(decide (e.getLast? = some '#')) &&
          (decide (regexLastToken esd = []) ||
           decide (lastTok '/' e = regexLastToken esd))))) := rfl

/-- C5 counterexample: the candidate below does not end in the
multi-level wildcard character and its second segment is not
experimental, yet it is accepted in lenient mode although no level-6
entry has a final segment equal to the candidate's final segment: the
mid-segment wildcard makes the computed last-token string differ from
the candidate's final segment. -/
theorem c5_counterexample :
    thC5.validate_esd_subtopic "weather/a#b".data false = .ok true ∧
      "weather/a#b".data.getLast? ≠ some '#' ∧
      (splitChar '/' "weather/a#b".data)[1]? ≠ some "experimental".data ∧
      ¬ ∃ e ∈ thC5.lastLevel, rmatch (toAtoms "weather/a#b".data) e = true ∧
        lastTok '/' e = lastTok '/' "weather/a#b".data := by
  refine ⟨by decide, by decide, by decide, by decide⟩

/-- C5 (amended): in lenient mode, over wildcard-free reference tables,
for a candidate whose second piece is not experimental: when the
candidate's final segment contains no wildcard character, acceptance
implies some level-6 entry matches the wildcard pattern and has a final
segment exactly equal to the candidate's final segment (so a candidate
ending in a concrete segment never matches an entry whose last segment
is a same-prefix superstring); and a candidate whose final segment
contains the single-level wildcard character is never accepted. -/
theorem c5_amended (th : TopicHierarchy) (esd : Str)
    (hsafe : ∀ c ∈ esd, safeChar c = true)
    (hent : ∀ e ∈ th.lastLevel, ∀ c ∈ e, entryChar c = true)
    (hnb : ¬(1 < (splitChar '/' esd).length ∧
      (splitChar '/' esd)[1]? = some "experimental".data)) :
    ((∀ c ∈ lastTok '/' esd, c ≠ '+' ∧ c ≠ '#') →
      th.validate_esd_subtopic esd false = .ok true →
      ∃ e ∈ th.lastLevel, rmatch (toAtoms esd) e = true ∧
        lastTok '/' e = lastTok '/' esd) ∧
    ('+' ∈ lastTok '/' esd →
      th.validate_esd_subtopic esd false = .ok false) := by
  constructor
  · intro hw hacc
    rw [validate_esd_lenient, if_neg hnb] at hacc
    simp only [Except.ok.injEq] at hacc
    rw [List.any_eq_true] at hacc
    obtain ⟨e, he, hcond⟩ := hacc
    simp only [Bool.and_eq_true, Bool.or_eq_true, decide_eq_true_eq,
      Bool.not_eq_true', decide_eq_false_iff_not] at hcond
    obtain ⟨⟨hm, -⟩, hor⟩ := hcond
    have hrlt : regexLastToken esd = lastTok '/' esd :=
      regexLastToken_eq_lastTok
        (fun c hc => hsafe c (mem_of_mem_lastTok hc)) hw
    rcases hor with h0 | h0
    · rw [hrlt] at h0
      rcases lastTok_eq_nil_cases h0 with hnil | ⟨e', hdec⟩
      · subst hnil
        have hme : e = [] := by
          rw [show toAtoms [] = [] from rfl, rmatch_nil_iff] at hm
          exact hm
        subst hme
        exact ⟨[], he, by rw [show toAtoms [] = [] from rfl]; simp [rmatch],
          rfl⟩
      · rw [hdec] at hm
        rw [toAtoms_append, show toAtoms ['/'] = [RAtom.lit '/'] from rfl]
          at hm
        obtain ⟨e2, he2⟩ := rmatch_ends_lit hm
        have hle : lastTok '/' e = [] := by
          rw [he2, show (['/'] : Str) = '/' :: [] from rfl,
            lastTok_append_sep, lastTok_nil]
        refine ⟨e, he, ?_, by rw [hle, h0]⟩
        rw [hdec, toAtoms_append,
          show toAtoms ['/'] = [RAtom.lit '/'] from rfl]
        exact hm
    · rw [hrlt] at h0
      exact ⟨e, he, hm, h0⟩
  · intro hplus
    rw [validate_esd_lenient, if_neg hnb]
    have hparen := paren_mem_regexLastToken hplus
    have hany : (th.lastLevel.any (fun e =>
        rmatch (toAtoms esd) e &&
        !(decide (e.getLast? = some '#')) &&
        (decide (regexLastToken esd = []) ||
         decide (lastTok '/' e = regexLastToken esd)))) = false := by
      cases hany : (th.lastLevel.any (fun e =>
          rmatch (toAtoms esd) e &&
          !(decide (e.getLast? = some '#')) &&
          (decide (regexLastToken esd = []) ||
           decide (lastTok '/' e = regexLastToken esd)))) with
      | false => rfl
      | true =>
        exfalso
        rw [List.any_eq_true] at hany
        obtain ⟨e, he, hcond⟩ := hany
        simp only [Bool.and_eq_true, Bool.or_eq_true, decide_eq_true_eq,
          Bool.not_eq_true', decide_eq_false_iff_not] at hcond
        rcases hcond.2 with h0 | h0
        · rw [h0] at hparen
          simp at hparen
        · rw [← h0] at hparen
          have hech : entryChar '(' = true :=
            hent e he '(' (mem_of_mem_lastTok hparen)
          exact absurd hech (by decide)
    rw [hany]

/-- C5 witness. -/
theorem c5_witness :
    ((∀ c ∈ lastTok '/' "weather/ab".data, c ≠ '+' ∧ c ≠ '#') →
      thC5.validate_esd_subtopic "weather/ab".data false = .ok true →
      ∃ e ∈ thC5.lastLevel, rmatch (toAtoms "weather/ab".data) e = true ∧
        lastTok '/' e = lastTok '/' "weather/ab".data) ∧
    ('+' ∈ lastTok '/' "weather/ab".data →
      thC5.validate_esd_subtopic "weather/ab".data false = .ok false) :=
  c5_amended thC5 "weather/ab".data (by decide) (by decide) (by decide)

theorem getElem?_set_self {α : Type} :
    ∀ (l : List α) (i : Nat) (x : α), i < l.length →
      (l.set i x)[i]? = some x := by
  intro l
  induction l with
  | nil => intro i x h; simp at h
  | cons a rest ih =>
    intro i x h
    cases i with
    | zero => simp
    | succ i =>
      simp only [List.set_cons_succ, List.getElem?_cons_succ]
      exact ih i x (by simpa using h)

theorem getElem?_set_ne {α : Type} :
    ∀ (l : List α) (i j : Nat) (x : α), i ≠ j →
      (l.set i x)[j]? = l[j]? := by
  intro l
  induction l with
  | nil => intro i j x _; simp
  | cons a rest ih =>
    intro i j x hij
    cases i with
    | zero =>
      cases j with
      | zero => exact absurd rfl hij
      | succ j => simp
    | succ i =>
      cases j with
      | zero => simp
      | succ j =>
        simp only [List.set_cons_succ, List.getElem?_cons_succ]
        exact ih i j x (by omega)

theorem mem_of_getLast? {α : Type} :
    ∀ {l : List α} {a : α}, l.getLast? = some a → a ∈ l := by
  intro l
  induction l with
  | nil => intro a h; simp at h
  | cons b rest ih =>
    intro a h
    cases rest with
    | nil =>
      simp only [List.getLast?_singleton, Option.some.injEq] at h
      simp [h]
    | cons r t =>
      rw [List.getLast?_cons_cons] at h
      exact List.mem_cons_of_mem _ (ih h)

theorem lastTok_joinChar {ls : List Str} (hne : ls ≠ [])
    (hno : ∀ s ∈ ls, '/' ∉ s) :
    lastTok '/' (joinChar '/' ls) = ls.getLastD [] := by
  unfold lastTok
  rw [splitChar_joinChar hne hno]

theorem getLastD_set {α : Type} :
    ∀ (l : List α) (i : Nat) (x d : α), i + 1 < l.length →
      (l.set i x).getLastD d = l.getLastD d := by
  intro l
  induction l with
  | nil => intro i x d h; simp at h
  | cons a rest ih =>
    intro i x d h
    simp only [List.length_cons] at h
    cases i with
    | zero =>
      simp only [List.set_cons_zero, List.getLastD_cons]
      have hrest : rest ≠ [] := by
        intro h0
        rw [h0] at h
        simp at h
      exact getLastD_of_ne_nil _ _ hrest
    | succ i =>
      simp only [List.set_cons_succ, List.getLastD_cons]
      exact ih i x a (by omega)

theorem rmatch_set_plus :
    ∀ (S : List Str) (i : Nat),
      (∀ s ∈ S, '/' ∉ s ∧ ∀ c ∈ s, c ≠ '+' ∧ c ≠ '#') →
      i < S.length → S.getD i [] ≠ [] →
      (∀ c ∈ S.getD i [], isWordChar c = true) →
      rmatch (toAtoms (joinChar '/' (S.set i "+".data)))
        (joinChar '/' S) = true := by
  intro S
  induction S with
  | nil => intro i _ h _ _; simp at h
  | cons s rest ih =>
    intro i hprops hi hne hword
    cases i with
    | zero =>
      simp only [List.getD_cons_zero] at hne hword
      simp only [List.set_cons_zero]
      cases rest with
      | nil =>
        show rmatch (toAtoms "+".data) s = true
        rw [show toAtoms "+".data = [RAtom.plus] from rfl]
        exact rmatch_plus_word hne hword
      | cons r t =>
        rw [show joinChar '/' ("+".data :: r :: t) =
            "+".data ++ '/' :: joinChar '/' (r :: t) from
          joinChar_cons_of_ne_nil (by simp)]
        rw [show joinChar '/' (s :: r :: t) =
            s ++ '/' :: joinChar '/' (r :: t) from
          joinChar_cons_of_ne_nil (by simp)]
        rw [toAtoms_append, show toAtoms "+".data = [RAtom.plus] from rfl]
        apply rmatch_append [RAtom.plus] _ s ('/' :: joinChar '/' (r :: t))
        · exact rmatch_plus_word hne hword
        · apply rmatch_toAtoms_self
          intro c hc
          rcases List.mem_cons.mp hc with h1 | h2
          · subst h1
            exact ⟨by decide, by decide⟩
          · rcases mem_joinChar_cases h2 with h3 | ⟨s2, hs2, hcs2⟩
            · subst h3
              exact ⟨by decide, by decide⟩
            · exact (hprops s2 (List.mem_cons_of_mem _ hs2)).2 c hcs2
    | succ i =>
      simp only [List.getD_cons_succ] at hne hword
      simp only [List.length_cons] at hi
      simp only [List.set_cons_succ]
      have hrestne : rest ≠ [] := by
        intro h0
        rw [h0] at hi
        simp at hi
      have hsetne : rest.set i "+".data ≠ [] := by
        intro h0
        apply hrestne
        have hl := congrArg List.length h0
        rw [List.length_set] at hl
        exact List.length_eq_zero.mp (by simpa using hl)
      rw [joinChar_cons_of_ne_nil hsetne, joinChar_cons_of_ne_nil hrestne,
        toAtoms_append]
      apply rmatch_append
      · apply rmatch_toAtoms_self
        exact (hprops s (by simp)).2
      · have hlit : toAtoms ('/' :: joinChar '/' (rest.set i "+".data)) =
            RAtom.lit '/' :: toAtoms (joinChar '/' (rest.set i "+".data)) :=
          toAtoms_lit (by decide) (by decide) _
        rw [hlit]
        have hih := ih i
          (fun s2 hs2 => hprops s2 (List.mem_cons_of_mem _ hs2))
          (by omega) hne hword
        simp [rmatch, hih]

/-- C6 counterexample: the entry below has at least two segments, its
second segment is not experimental, and replacing its (non-final)
middle segment by the single-level wildcard yields a candidate the code
rejects in lenient mode, because the substituted group only matches
word characters and the replaced segment contains hyphens. -/
theorem c6_counterexample :
    thC6.validate_esd_subtopic "a/+/d".data false = .ok false ∧
      "a/b-c/d".data ∈ thC6.lastLevel ∧
      (splitChar '/' "a/b-c/d".data)[1]? = some "b-c".data ∧
      "a/+/d".data =
        joinChar '/' ((splitChar '/' "a/b-c/d".data).set 1 "+".data) := by
  refine ⟨by decide, by decide, by decide, by decide⟩

/-- C6 (amended): in lenient mode, for every level-6 entry over the
table character set with at least two segments whose second segment is
not experimental, and every non-final segment position whose segment is
non-empty and consists of word characters (letters, digits,
underscore), the candidate obtained by replacing that segment with the
single-level wildcard is accepted; segments containing other characters
such as hyphens are not matched by the substituted group. -/
theorem c6_amended (th : TopicHierarchy) (E : Str) (i : Nat)
    (hE : E ∈ th.lastLevel)
    (hEc : ∀ c ∈ E, entryChar c = true)
    (hlen : 2 ≤ (splitChar '/' E).length)
    (hexp2 : (splitChar '/' E)[1]? ≠ some "experimental".data)
    (hi : i + 1 < (splitChar '/' E).length)
    (hseg : (splitChar '/' E).getD i [] ≠ [] ∧
      ∀ c ∈ (splitChar '/' E).getD i [], isWordChar c = true) :
    th.validate_esd_subtopic
      (joinChar '/' ((splitChar '/' E).set i "+".data)) false = .ok true := by
  have hSne : splitChar '/' E ≠ [] := splitChar_ne_nil '/' E
  have hSprops : ∀ s ∈ splitChar '/' E,
      '/' ∉ s ∧ ∀ c ∈ s, c ≠ '+' ∧ c ≠ '#' := by
    intro s hs
    refine ⟨not_sep_mem_splitChar hs, fun c hc => ?_⟩
    have hc2 : c ∈ E := mem_of_mem_splitChar hs hc
    have hx := entryChar_excl (hEc c hc2)
    exact ⟨hx.1, hx.2.1⟩
  have hsetprops : ∀ s ∈ (splitChar '/' E).set i "+".data, '/' ∉ s := by
    intro s hs
    rcases List.mem_or_eq_of_mem_set hs with h1 | h2
    · exact (hSprops s h1).1
    · rw [h2]
      decide
  have hsetne : (splitChar '/' E).set i "+".data ≠ [] := by
    intro h0
    apply hSne
    have hl := congrArg List.length h0
    rw [List.length_set] at hl
    exact List.length_eq_zero.mp (by simpa using hl)
  have hsplitcand :
      splitChar '/' (joinChar '/' ((splitChar '/' E).set i "+".data)) =
        (splitChar '/' E).set i "+".data :=
    splitChar_joinChar hsetne hsetprops
  rw [validate_esd_lenient, if_neg ?hnb]
  case hnb =>
    rintro ⟨-, h2⟩
    rw [hsplitcand] at h2
    by_cases hi1 : i = 1
    · subst hi1
      rw [getElem?_set_self _ 1 _ (by omega)] at h2
      simp only [Option.some.injEq] at h2
      exact absurd h2.symm (by decide)
    · rw [getElem?_set_ne _ i 1 _ hi1] at h2
      exact hexp2 h2
  have hlastmem : (splitChar '/' E).getLastD [] ∈ splitChar '/' E :=
    getLastD_mem [] hSne
  have hlastchar : ∀ c ∈ (splitChar '/' E).getLastD [], entryChar c = true :=
    fun c hc => hEc c (mem_of_mem_splitChar hlastmem hc)
  have hlt : lastTok '/' (joinChar '/' ((splitChar '/' E).set i "+".data)) =
      (splitChar '/' E).getLastD [] := by
    rw [lastTok_joinChar hsetne hsetprops]
    exact getLastD_set _ i _ [] hi
  have hrlt :
      regexLastToken (joinChar '/' ((splitChar '/' E).set i "+".data)) =
        (splitChar '/' E).getLastD [] := by
    rw [regexLastToken_eq_lastTok ?hs ?hw, hlt]
    case hs =>
      rw [hlt]
      intro c hc
      exact entryChar_safe (hlastchar c hc)
    case hw =>
      rw [hlt]
      intro c hc
      have hx := entryChar_excl (hlastchar c hc)
      exact ⟨hx.1, hx.2.1⟩
  have hEjoin : joinChar '/' (splitChar '/' E) = E := joinChar_splitChar '/' E
  have hmatch :
      rmatch (toAtoms (joinChar '/' ((splitChar '/' E).set i "+".data)))
        E = true := by
    have hmatch0 :=
      rmatch_set_plus (splitChar '/' E) i hSprops (by omega) hseg.1 hseg.2
    rw [hEjoin] at hmatch0
    exact hmatch0
  have hEnohash : ¬ E.getLast? = some '#' := by
    intro h0
    have hmem : '#' ∈ E := mem_of_getLast? h0
    exact (entryChar_excl (hEc '#' hmem)).2.1 rfl
  have hlastE : lastTok '/' E = (splitChar '/' E).getLastD [] := rfl
  have hany : (th.lastLevel.any (fun e =>
      rmatch (toAtoms (joinChar '/' ((splitChar '/' E).set i "+".data))) e &&
      !(decide (e.getLast? = some '#')) &&
      (decide (regexLastToken
          (joinChar '/' ((splitChar '/' E).set i "+".data)) = []) ||
       decide (lastTok '/' e = regexLastToken
          (joinChar '/' ((splitChar '/' E).set i "+".data)))))) = true := by
    rw [List.any_eq_true]
    refine ⟨E, hE, ?_⟩
    simp only [Bool.and_eq_true, Bool.or_eq_true, decide_eq_true_eq,
      Bool.not_eq_true', decide_eq_false_iff_not]
    exact ⟨⟨hmatch, hEnohash⟩, Or.inr (by rw [hrlt, hlastE])⟩
  rw [hany]

/-- C6 witness. -/
theorem c6_witness :
    thC6.validate_esd_subtopic
      (joinChar '/' ((splitChar '/' "a/b-c/d".data).set 0 "+".data)) false
      = .ok true :=
  c6_amended thC6 "a/b-c/d".data 0 (by decide) (by decide) (by decide)
    (by decide) (by decide) ⟨by decide, by decide⟩

/-- C8 counterexample: for the topic below (a valid topic of more than
six segments), the claimed child set is the set of next segments after
the proper-prefix entries, here the singleton containing the segment
after weather/observations in weather/observations1; the code instead
contributes the first segment of the entry with every occurrence of
subtopic-plus-separator deleted, returning a spurious child. -/
theorem c8_counterexample :
    thC8.list_children
        (some "cache/a/wis2/ca-eccc-msc/data/core/weather/observations".data)
      = .ok ["weather".data] ∧
      specNextSegs thC8.lastLevel "weather/observations".data
        = ["1".data] := by
  refine ⟨by decide, by decide⟩

/-- C8 (amended): for every valid topic with more than six segments,
whenever every level-6 entry extending the ESD subtopic as a string
does so segment-aligned (continues with the separator immediately after
the prefix) and contains no further occurrence of the prefixed
separator run, list_children returns exactly the deduplicated set of
first segments immediately following the prefix; without the alignment
condition the deletion-based computation can return spurious
segments. -/
theorem c8_amended (th : TopicHierarchy) (t : Str)
    (h7 : 6 < (splitChar '/' t).length)
    (hvalid : th.validate (some t) true = .ok true)
    (halign : ∀ e ∈ th.lastLevel, (esdOf t).isPrefixOf e = true →
      e ≠ esdOf t → ∃ rest, e = esdOf t ++ '/' :: rest ∧
        occursIn (esdOf t ++ ['/']) rest = false)
    (hne : specNextSegs th.lastLevel (esdOf t) ≠ []) :
    ∃ L, th.list_children (some t) = .ok L ∧ L.Nodup ∧
      ∀ x, x ∈ L ↔ x ∈ specNextSegs th.lastLevel (esdOf t) := by
  have ht : t ≠ "/".data := by
    rintro rfl
    revert h7
    decide
  have hlen7 : (splitN '/' 6 t).length = 7 := by
    rw [splitN_length]
    omega
  have hdom : (splitN '/' 6 t).getLastD [] = esdOf t := splitN_getLastD 6 t h7
  have hmapeq : th.lastLevel.filterMap (fun e =>
      if (esdOf t).isPrefixOf e ∧ e ≠ esdOf t then
        if removeAll (esdOf t ++ ['/']) e ≠ [] then
          some ((splitChar '/' (removeAll (esdOf t ++ ['/']) e)).headD [])
        else none
      else none) = specNextSegs th.lastLevel (esdOf t) := by
    unfold specNextSegs
    apply List.filterMap_congr
    intro e he
    by_cases hp : (esdOf t).isPrefixOf e = true ∧ e ≠ esdOf t
    · rw [if_pos hp, if_pos hp]
      obtain ⟨rest, hrest, hocc⟩ := halign e he hp.1 hp.2
      have hmask : removeAll (esdOf t ++ ['/']) e = rest := by
        rw [hrest,
          show esdOf t ++ '/' :: rest = (esdOf t ++ ['/']) ++ rest by simp,
          removeAll_append_self (by simp), removeAll_of_not_occursIn hocc]
      have hdrop : e.drop (esdOf t).length = '/' :: rest := by
        rw [hrest, show esdOf t ++ '/' :: rest = esdOf t ++ ('/' :: rest)
          from rfl, List.drop_left]
      rw [hmask, hdrop]
      simp only [List.head?_cons, List.tail_cons, if_pos rfl]
      by_cases hr : rest = []
      · simp [hr]
      · simp [hr]
    · rw [if_neg hp, if_neg hp]
  have hcs : th.childSet t = (specNextSegs th.lastLevel (esdOf t)).dedup := by
    unfold TopicHierarchy.childSet
    dsimp only
    rw [hlen7, if_neg (by omega), if_neg (by omega), hdom, hmapeq]
  have hdedup_ne : (specNextSegs th.lastLevel (esdOf t)).dedup ≠ [] := by
    intro h0
    exact hne ((List.dedup_eq_nil _).mp h0)
  refine ⟨(specNextSegs th.lastLevel (esdOf t)).dedup, ?_,
    List.nodup_dedup _, fun x => List.mem_dedup⟩
  simp only [TopicHierarchy.list_children]
  rw [if_neg ht, hvalid]
  show (if th.childSet t = [] then Except.error PyErr.noMatch
        else Except.ok (th.childSet t)) = _
  rw [hcs, if_neg hdedup_ne]

/-- C8 witness: tables whose level-6 entries extend the query subtopic
segment-aligned. -/
theorem c8_witness :
    ∃ L, thC8w.list_children
        (some "cache/a/wis2/ca-eccc-msc/data/core/weather/obs".data)
        = .ok L ∧ L.Nodup ∧
      ∀ x, x ∈ L ↔ x ∈ specNextSegs thC8w.lastLevel
        (esdOf "cache/a/wis2/ca-eccc-msc/data/core/weather/obs".data) := by
  refine c8_amended thC8w _ (by decide) (by decide) ?_ (by decide)
  intro e he hp hneq
  rcases List.mem_cons.mp he with h1 | h2
  · exact absurd (h1.trans (by decide)) hneq
  · rcases List.mem_cons.mp h2 with h3 | h4
    · subst h3
      exact ⟨"x".data, by decide, by decide⟩
    · simp at h4
